import Mathlib

/-!
Verification of the tree-to-JSON encoder of `goxml2json` (`encoder.go`).

Go strings are byte sequences, so strings are modelled as `List Nat`
(each entry one byte).  The encoder, its configuration state, the
recursive `format` traversal and the `sanitiseString` escaper are
embedded from `encoder.go`; the `unicode/utf8` decoding used by
`sanitiseString` is embedded from Go's standard library
(`utf8.DecodeRuneInString`, with the `first` / `acceptRanges` tables
expanded into explicit range tests).
-/

/-- Byte strings: a Go `string` value, one `Nat` per byte. -/
abbrev Bytes := List Nat

/-- UTF-8 encoding of a single code point (Go `utf8.EncodeRune` for
valid runes; used to build byte-string literals from Lean strings). -/
def encodeChar (n : Nat) : Bytes :=
  if n < 0x80 then [n]
  else if n < 0x800 then [0xC0 + n / 0x40, 0x80 + n % 0x40]
  else if n < 0x10000 then
    [0xE0 + n / 0x1000, 0x80 + n / 0x40 % 0x40, 0x80 + n % 0x40]
  else
    [0xF0 + n / 0x40000, 0x80 + n / 0x1000 % 0x40, 0x80 + n / 0x40 % 0x40, 0x80 + n % 0x40]

/-- UTF-8 bytes of a list of characters. -/
def utf8Bytes (cs : List Char) : Bytes :=
  (cs.map (fun c => encodeChar c.toNat)).flatten

/-- UTF-8 bytes of a Lean string literal (Go source string literals). -/
def bs (s : String) : Bytes :=
  utf8Bytes s.data

/-- The hex table of `encoder.go`: `var hex = "0123456789abcdef"`. -/
def hexTable : Bytes :=
  bs "0123456789abcdef"

/-- Go `hex[n]`. -/
def hexAt (n : Nat) : Nat :=
  hexTable.getD n 0

/-- Go `utf8.DecodeRuneInString` on a byte suffix: returns the decoded
rune and its size in bytes; `(0xFFFD, 1)` on an invalid encoding,
`(0xFFFD, 0)` on empty input (`RuneError = 0xFFFD`). -/
def decodeRune : Bytes → Nat × Nat
  | [] => (0xFFFD, 0)
  | s0 :: rest =>
    if s0 < 0x80 then (s0, 1)
    else if s0 < 0xC2 then (0xFFFD, 1)
    else if s0 < 0xE0 then
      match rest with
      | s1 :: _ =>
        if 0x80 ≤ s1 ∧ s1 ≤ 0xBF then (s0 % 0x20 * 0x40 + s1 % 0x40, 2)
        else (0xFFFD, 1)
      | _ => (0xFFFD, 1)
    else if s0 < 0xF0 then
      match rest with
      | s1 :: s2 :: _ =>
        if (if s0 = 0xE0 then 0xA0 ≤ s1 ∧ s1 ≤ 0xBF
            else if s0 = 0xED then 0x80 ≤ s1 ∧ s1 ≤ 0x9F
            else 0x80 ≤ s1 ∧ s1 ≤ 0xBF) ∧ 0x80 ≤ s2 ∧ s2 ≤ 0xBF then
          (s0 % 0x10 * 0x1000 + s1 % 0x40 * 0x40 + s2 % 0x40, 3)
        else (0xFFFD, 1)
      | _ => (0xFFFD, 1)
    else if s0 < 0xF5 then
      match rest with
      | s1 :: s2 :: s3 :: _ =>
        if (if s0 = 0xF0 then 0x90 ≤ s1 ∧ s1 ≤ 0xBF
            else if s0 = 0xF4 then 0x80 ≤ s1 ∧ s1 ≤ 0x8F
            else 0x80 ≤ s1 ∧ s1 ≤ 0xBF) ∧ 0x80 ≤ s2 ∧ s2 ≤ 0xBF ∧ 0x80 ≤ s3 ∧ s3 ≤ 0xBF then
          (s0 % 8 * 0x40000 + s1 % 0x40 * 0x1000 + s2 % 0x40 * 0x40 + s3 % 0x40, 4)
        else (0xFFFD, 1)
      | _ => (0xFFFD, 1)
    else (0xFFFD, 1)

/-- The escape emitted by `sanitiseString` for a byte in the ASCII
escape set (the `switch b` block of `encoder.go`). -/
def escASCII (b : Nat) : Bytes :=
  if b = 0x5C ∨ b = 0x22 then [0x5C, b]
  else if b = 0x0A then [0x5C, 0x6E]
  else if b = 0x0D then [0x5C, 0x72]
  else if b = 0x09 then [0x5C, 0x74]
  else bs "\\u00" ++ [hexAt (b / 16), hexAt (b % 16)]

/-- Go `s[start:i]`. -/
def goSlice (s : Bytes) (start i : Nat) : Bytes :=
  (s.drop start).take (i - start)

/-- On a non-empty input the Go UTF-8 decoder consumes at least one byte. -/
theorem decodeRune_size_pos (l : Bytes) (h : l ≠ []) : 1 ≤ (decodeRune l).2 := by
  match l with
  | [] => exact absurd rfl h
  | [s0] => simp only [decodeRune]; split_ifs <;> simp
  | [s0, s1] => simp only [decodeRune]; split_ifs <;> simp
  | [s0, s1, s2] => simp only [decodeRune]; split_ifs <;> simp
  | s0 :: s1 :: s2 :: s3 :: rest => simp only [decodeRune]; split_ifs <;> simp

/-- The Go UTF-8 decoder never consumes more bytes than are present. -/
theorem decodeRune_size_le (l : Bytes) : (decodeRune l).2 ≤ l.length := by
  match l with
  | [] => simp [decodeRune]
  | [s0] => simp only [decodeRune]; split_ifs <;> simp
  | [s0, s1] => simp only [decodeRune]; split_ifs <;> simp
  | [s0, s1, s2] => simp only [decodeRune]; split_ifs <;> simp
  | s0 :: s1 :: s2 :: s3 :: rest =>
    simp only [decodeRune]
    split_ifs <;> simp

/-- Dropping strictly inside a list leaves a non-empty suffix. -/
theorem drop_ne_nil (s : Bytes) (i : Nat) (h : i < s.length) : s.drop i ≠ [] := by
  have hl : (s.drop i).length = s.length - i := List.length_drop i s
  intro hc
  rw [hc] at hl
  simp at hl
  omega

/-- The scanning loop of `sanitiseString` (`for i := 0; i < len(s);`):
`buf` is the output buffer, `start` the beginning of the pending
verbatim run, `i` the scan position. -/
def sanLoop (s buf : Bytes) (start i : Nat) : Bytes :=
  if h : i < s.length then
    let b := s.getD i 0
    if b < 0x80 then
      if 0x20 ≤ b ∧ b ≠ 0x5C ∧ b ≠ 0x22 ∧ b ≠ 0x3C ∧ b ≠ 0x3E ∧ b ≠ 0x26 then
        sanLoop s buf start (i + 1)
      else
        sanLoop s ((buf ++ (if start < i then goSlice s start i else [])) ++ escASCII b)
          (i + 1) (i + 1)
    else
      let c := (decodeRune (s.drop i)).1
      let size := (decodeRune (s.drop i)).2
      if c = 0xFFFD ∧ size = 1 then
        sanLoop s ((buf ++ (if start < i then goSlice s start i else [])) ++ bs "\\ufffd")
          (i + size) (i + size)
      else if c = 0x2028 ∨ c = 0x2029 then
        sanLoop s ((buf ++ (if start < i then goSlice s start i else [])) ++ (bs "\\u202" ++ [hexAt (c % 16)]))
          (i + size) (i + size)
      else
        sanLoop s buf start (i + size)
  else
    buf ++ (if start < s.length then goSlice s start s.length else [])
termination_by s.length - i
decreasing_by
  all_goals first
    | omega
    | (have hp := decodeRune_size_pos (s.drop i) (drop_ne_nil s i h); omega)

/-- Embeds `sanitiseString` of `encoder.go`: opening quote, scan loop,
closing quote. -/
def sanitiseString (s : Bytes) : Bytes :=
  sanLoop s [0x22] 0 0 ++ [0x22]

/-- A parsed XML tree node.  Modelled from the spec: the `Node` type is
declared in the repository's model file, which is not under `src/`; its
shape is taken from spec §3 — text content `Data`, and `Children`
mapping labels to ordered sequences of child nodes.  The Go map is
modelled as an association list carrying one iteration order; `format`
sorts labels itself whenever there is more than one, so the encoder's
output does not depend on this order (proved below). -/
inductive Node where
  | mk (Data : Bytes) (Children : List (Bytes × List Node)) : Node

/-- Field accessor `Data`. -/
def Node.Data : Node → Bytes
  | .mk d _ => d

/-- Field accessor `Children`. -/
def Node.Children : Node → List (Bytes × List Node)
  | .mk _ c => c

/-- Modelled from the spec: `HasChildren` (declared in the repository's
model file, not under `src/`): a node is a container iff `Children` has
at least one entry (spec §3 invariants). -/
def Node.HasChildren (n : Node) : Bool :=
  0 < n.Children.length

/-- A Go `error` value. -/
abbrev GoErr := String

/-- Embeds the `Encoder` struct of `encoder.go`.  The `io.Writer` `w`
is modelled by a writer state `ws : σ` together with the writer's
`Write` method `writeFn`, which returns the updated stream state and
an optional error (the byte count is irrelevant because `write`
discards the whole result). -/
structure Encoder (σ : Type) where
  writeFn : σ → Bytes → σ × Option GoErr
  ws : σ
  err : Option GoErr
  contentPrefix : Bytes
  attributePrefix : Bytes
  indent : Bool
  indentText : Bytes

/-- Embeds `func (enc *Encoder) write(s ...string)`: one `w.Write` call
per argument, both results of `w.Write` discarded. -/
def Encoder.write (enc : Encoder σ) (ss : List Bytes) : Encoder σ :=
  ss.foldl (fun e s => { e with ws := (e.writeFn e.ws s).1 }) enc

/-- Helper for `indentN`: `n` successive `enc.write(s)` calls. -/
def Encoder.writeN (enc : Encoder σ) (s : Bytes) : Nat → Encoder σ
  | 0 => enc
  | n + 1 => (enc.write [s]).writeN s n

/-- Embeds the local closure `indentN` of `format`: writes
`enc.indentText` `n` times when `enc.indent` is set. -/
def Encoder.indentN (enc : Encoder σ) (n : Nat) : Encoder σ :=
  if enc.indent then enc.writeN enc.indentText n else enc

/-- Go map lookup `curNode.Children[label]`; a missing key yields the
nil slice. -/
def lookupChildren : List (Bytes × List Node) → Bytes → List Node
  | [], _ => []
  | (l, chs) :: rest, k => if l = k then chs else lookupChildren rest k

/-- Byte-wise lexicographic order on Go strings (`s <= t`), the order
used by `sort.Strings`. -/
def leB : Bytes → Bytes → Bool
  | [], _ => true
  | _ :: _, [] => false
  | a :: at', b :: bt => if a < b then true else if b < a then false else leB at' bt

/-- `leB` as a relation. -/
def strLe (a b : Bytes) : Prop := leB a b = true

instance : DecidableRel strLe := fun _ _ => instDecidableEqBool _ _

theorem leB_total (a b : Bytes) : leB a b = true ∨ leB b a = true := by
  induction a generalizing b with
  | nil => left; rfl
  | cons x at' ih =>
    cases b with
    | nil => right; rfl
    | cons y bt =>
      simp only [leB]
      rcases Nat.lt_trichotomy x y with h | h | h
      · left; simp [h]
      · subst h
        simpa [Nat.lt_irrefl] using ih bt
      · right; simp [h]

theorem leB_trans (a b c : Bytes) (h1 : leB a b = true) (h2 : leB b c = true) :
    leB a c = true := by
  induction a generalizing b c with
  | nil => rfl
  | cons x at' ih =>
    cases b with
    | nil => simp [leB] at h1
    | cons y bt =>
      cases c with
      | nil => simp [leB] at h2
      | cons z ct =>
        simp only [leB] at h1 h2 ⊢
        rcases Nat.lt_trichotomy x y with hxy | hxy | hxy
        · rcases Nat.lt_trichotomy y z with hyz | hyz | hyz
          · rw [if_pos (by omega)]
          · subst hyz; rw [if_pos hxy]
          · rw [if_neg (by omega), if_pos hyz] at h2
            exact absurd h2 (by simp)
        · subst hxy
          rw [if_neg (by omega), if_neg (by omega)] at h1
          rcases Nat.lt_trichotomy x z with hxz | hxz | hxz
          · rw [if_pos hxz]
          · subst hxz
            rw [if_neg (by omega), if_neg (by omega)] at h2
            rw [if_neg (by omega), if_neg (by omega)]
            exact ih bt ct h1 h2
          · rw [if_neg (by omega), if_pos hxz] at h2
            exact absurd h2 (by simp)
        · rw [if_neg (by omega), if_pos hxy] at h1
          exact absurd h1 (by simp)

theorem leB_antisymm (a b : Bytes) (h1 : leB a b = true) (h2 : leB b a = true) :
    a = b := by
  induction a generalizing b with
  | nil =>
    cases b with
    | nil => rfl
    | cons y bt => simp [leB] at h2
  | cons x at' ih =>
    cases b with
    | nil => simp [leB] at h1
    | cons y bt =>
      simp only [leB] at h1 h2
      rcases Nat.lt_trichotomy x y with hxy | hxy | hxy
      · rw [if_neg (by omega), if_pos hxy] at h2
        exact absurd h2 (by simp)
      · subst hxy
        rw [if_neg (by omega), if_neg (by omega)] at h1
        rw [if_neg (by omega), if_neg (by omega)] at h2
        rw [ih bt h1 h2]
      · rw [if_neg (by omega), if_pos hxy] at h1
        exact absurd h1 (by simp)

instance : IsTotal Bytes strLe := ⟨leB_total⟩

instance : IsTrans Bytes strLe := ⟨leB_trans⟩

instance : IsAntisymm Bytes strLe := ⟨leB_antisymm⟩

/-- Embeds `sort.Strings(sl)`: the labels are pairwise distinct (they
are Go map keys), so any sorting algorithm produces the same list;
insertion sort realises it. -/
def sortStrings (l : List Bytes) : List Bytes :=
  List.insertionSort strLe l

/-- The label slice `sl` built by `format` (lines 98-106 of
`encoder.go`): collect all labels, sort only when there are at least
two (`if len(sl) > 1 { sort.Strings(sl) }`). -/
def slOf (children : List (Bytes × List Node)) : List Bytes :=
  let sl := children.map Prod.fst
  if 1 < sl.length then sortStrings sl else sl

/-- Children of a node are smaller than the node, for termination. -/
theorem Node.sizeOf_Children (n : Node) : sizeOf n.Children < sizeOf n := by
  cases n with
  | mk d c => simp [Node.Children, Node.mk.sizeOf_spec]

/-- A map lookup result is no larger than the map, for termination. -/
theorem sizeOf_lookupChildren (children : List (Bytes × List Node)) (k : Bytes) :
    sizeOf (lookupChildren children k) ≤ sizeOf children := by
  induction children with
  | nil => simp [lookupChildren]
  | cons p rest ih =>
    cases p with
    | mk l chs =>
      simp only [lookupChildren]
      split
      · simp only [List.cons.sizeOf_spec, Prod.mk.sizeOf_spec]; omega
      · refine le_trans ih ?_
        simp only [List.cons.sizeOf_spec, Prod.mk.sizeOf_spec]; omega

mutual

/-- Embeds `func (enc *Encoder) format(curNode *Node, lvl int) error`.
Configuration fields (`indent`, `contentPrefix`, `indentText`) are read
off the incoming `enc`; `write` never changes them, so this matches the
Go code reading them through the receiver pointer at any time.  Note
the Go loop body `enc.format(ch, lvl+2)` discards the returned error,
and every path returns `nil`. -/
def format (enc : Encoder σ) (curNode : Node) (lvl : Nat) : Encoder σ × Option GoErr :=
  if curNode.HasChildren then
    let e1 := enc.write [bs "\x7b"]
    let e2 := if enc.indent then e1.write [bs "\n"] else e1
    let e3 :=
      if 0 < curNode.Data.length then
        let e := (e2.indentN (lvl + 1)).write
          [bs "\"", enc.contentPrefix, bs "content", bs "\": ", sanitiseString curNode.Data, bs ", "]
        if enc.indent then e.write [bs "\n"] else e
      else e2
    let e4 := formatEntries e3 curNode.Children (slOf curNode.Children) lvl []
    ((((e4.write [bs "\n"]).indentN lvl).write [bs "\x7d"]), none)
  else
    (enc.write [sanitiseString curNode.Data], none)
termination_by (sizeOf curNode, 0)
decreasing_by
  exact Prod.Lex.left _ _ (Node.sizeOf_Children curNode)

/-- The `for ii := range sl` loop of `format`: `com` is the pending
separator (empty on the first iteration, then `", "` or `",\n"`). -/
def formatEntries (enc : Encoder σ) (children : List (Bytes × List Node))
    (sl : List Bytes) (lvl : Nat) (com : Bytes) : Encoder σ :=
  match sl with
  | [] => enc
  | label :: rest =>
    let chs := lookupChildren children label
    let e1 := ((enc.write [com]).indentN (lvl + 1)).write [bs "\"", label, bs "\": "]
    let e2 :=
      if 1 < chs.length then
        (formatArray (e1.write [bs "["]) chs lvl []).write [bs "]"]
      else
        match hh : chs with
        | [] => e1
        | ch :: chtl => (format e1 ch (lvl + 1)).1
    formatEntries e2 children rest lvl (if enc.indent then bs ",\n" else bs ", ")
termination_by (sizeOf children, 1 + sl.length)
decreasing_by
  · have hle : sizeOf (lookupChildren children label) ≤ sizeOf children :=
      sizeOf_lookupChildren children label
    rcases Nat.lt_or_ge (sizeOf (lookupChildren children label)) (sizeOf children) with hlt | hge
    · exact Prod.Lex.left _ _ hlt
    · have heq : sizeOf (lookupChildren children label) = sizeOf children :=
        le_antisymm hle hge
      rw [heq]
      exact Prod.Lex.right _ (by omega)
  · have hle : sizeOf chs ≤ sizeOf children := sizeOf_lookupChildren children label
    rw [hh] at hle
    simp only [List.cons.sizeOf_spec] at hle
    exact Prod.Lex.left _ _ (by omega)
  · have hlen : rest.length < (label :: rest).length := by simp
    exact Prod.Lex.right _ (by omega)

/-- The inner array loop of `format` (`for _, ch := range children`):
`com1` is empty on the first iteration, then `", "`. -/
def formatArray (enc : Encoder σ) (chs : List Node) (lvl : Nat) (com1 : Bytes) : Encoder σ :=
  match chs with
  | [] => enc
  | ch :: rest =>
    formatArray ((format (enc.write [com1]) ch (lvl + 2)).1) rest lvl (bs ", ")
termination_by (sizeOf chs, 0)
decreasing_by
  · exact Prod.Lex.left _ _ (by simp only [List.cons.sizeOf_spec]; omega)
  · exact Prod.Lex.left _ _ (by simp only [List.cons.sizeOf_spec]; omega)

end

/-- Embeds `func (enc *Encoder) Encode(root *Node) error` (a Go `nil`
root is `none`): a stored error short-circuits; a nil root is a no-op
success; otherwise `enc.err = enc.format(root, 0)`, a newline is
written, and `enc.err` is returned. -/
def Encode (enc : Encoder σ) (root : Option Node) : Encoder σ × Option GoErr :=
  match enc.err with
  | some e => (enc, some e)
  | none =>
    match root with
    | none => (enc, none)
    | some r =>
      let p := format enc r 0
      let e1 : Encoder σ := { p.1 with err := p.2 }
      let e2 := e1.write [bs "\n"]
      (e2, e2.err)

/-- Embeds `EncodeWithCustomPrefixes`: overwrites both prefix fields on
the encoder, then encodes. -/
def EncodeWithCustomPrefixes (enc : Encoder σ) (root : Option Node)
    (cPre aPre : Bytes) : Encoder σ × Option GoErr :=
  Encode { enc with contentPrefix := cPre, attributePrefix := aPre } root

/-- Embeds `SetAttributePrefix` (returns the updated encoder). -/
def SetAttributePrefix (enc : Encoder σ) (p : Bytes) : Encoder σ :=
  { enc with attributePrefix := p }

/-- Embeds `SetContentPrefix`. -/
def SetContentPrefix (enc : Encoder σ) (p : Bytes) : Encoder σ :=
  { enc with contentPrefix := p }

/-- Embeds `SetIndent`: enables indent mode and stores the unit. -/
def SetIndent (enc : Encoder σ) (s : Bytes) : Encoder σ :=
  { enc with indent := true, indentText := s }

/-- Modelled from the spec: the package constant `contentPrefix`
(declared outside `src/`); spec §4.1 gives the default content key as
`"content"`, i.e. an empty default prefix. -/
def defaultContentPfx : Bytes := []

/-- Modelled from the spec: the package constant `attrPrefix` (declared
outside `src/`); spec §4.1 gives the default `"-"`. -/
def defaultAttrPfx : Bytes := bs "-"

/-- The collecting writer: the canonical always-succeeding `io.Writer`,
whose state is the byte stream written so far. -/
def collect : Bytes → Bytes → Bytes × Option GoErr :=
  fun st s => (st ++ s, none)

/-- Embeds `NewEncoder(w)` at a writer given by `writeFn`/`ws`. -/
def NewEncoder (writeFn : σ → Bytes → σ × Option GoErr) (ws : σ) : Encoder σ :=
  { writeFn := writeFn
    ws := ws
    err := none
    contentPrefix := defaultContentPfx
    attributePrefix := defaultAttrPfx
    indent := false
    indentText := [] }

theorem Encoder.write_nil (enc : Encoder σ) : enc.write [] = enc := rfl

theorem Encoder.write_cons (enc : Encoder σ) (s : Bytes) (rest : List Bytes) :
    enc.write (s :: rest) =
      ({ enc with ws := (enc.writeFn enc.ws s).1 } : Encoder σ).write rest := rfl

/-- `write` changes only the writer state. -/
theorem Encoder.write_eq_ws (enc : Encoder σ) (ss : List Bytes) :
    enc.write ss = { enc with ws := (enc.write ss).ws } := by
  induction ss generalizing enc with
  | nil => rfl
  | cons s rest ih =>
    rw [Encoder.write_cons]
    conv_lhs => rw [ih]

/-- `writeN` changes only the writer state. -/
theorem Encoder.writeN_eq_ws (enc : Encoder σ) (s : Bytes) (n : Nat) :
    enc.writeN s n = { enc with ws := (enc.writeN s n).ws } := by
  induction n generalizing enc with
  | zero => rfl
  | succ m ih =>
    show (enc.write [s]).writeN s m = _
    rw [ih]
    rfl

/-- `indentN` changes only the writer state. -/
theorem Encoder.indentN_eq_ws (enc : Encoder σ) (n : Nat) :
    enc.indentN n = { enc with ws := (enc.indentN n).ws } := by
  unfold Encoder.indentN
  split
  · exact Encoder.writeN_eq_ws enc enc.indentText n
  · rfl

/-- `e` agrees with `base` on every field but the writer state. -/
def FrameOf (base e : Encoder σ) : Prop :=
  e = { base with ws := e.ws }

theorem frame_refl (e : Encoder σ) : FrameOf e e := rfl

theorem frame_trans {a b c : Encoder σ} (h1 : FrameOf a b) (h2 : FrameOf b c) :
    FrameOf a c := by
  unfold FrameOf at *
  conv_lhs => rw [h2, h1]

theorem frame_write {base e : Encoder σ} (h : FrameOf base e) (ss : List Bytes) :
    FrameOf base (e.write ss) :=
  frame_trans h (Encoder.write_eq_ws e ss)

theorem frame_indentN {base e : Encoder σ} (h : FrameOf base e) (n : Nat) :
    FrameOf base (e.indentN n) :=
  frame_trans h (Encoder.indentN_eq_ws e n)

theorem frame_ite {base x y : Encoder σ} (c : Prop) [Decidable c]
    (hx : FrameOf base x) (hy : FrameOf base y) :
    FrameOf base (if c then x else y) := by
  split <;> assumption

mutual

/-- `format` changes only the writer state and always returns `nil`. -/
theorem format_frame (enc : Encoder σ) (curNode : Node) (lvl : Nat) :
    FrameOf enc (format enc curNode lvl).1 ∧ (format enc curNode lvl).2 = none := by
  rw [format]
  split
  · refine ⟨?_, rfl⟩
    refine frame_write (frame_indentN (frame_write ?_ _) _) _
    refine frame_trans ?_ (formatEntries_frame _ _ _ _ _)
    refine frame_ite _ ?_ ?_
    · refine frame_ite _ (frame_write ?_ _) ?_ <;>
        exact frame_write (frame_indentN (frame_ite _
          (frame_write (frame_write (frame_refl enc) _) _)
          (frame_write (frame_refl enc) _)) _) _
    · exact frame_ite _ (frame_write (frame_write (frame_refl enc) _) _)
        (frame_write (frame_refl enc) _)
  · exact ⟨frame_write (frame_refl enc) _, rfl⟩
termination_by (sizeOf curNode, 0)
decreasing_by
  exact Prod.Lex.left _ _ (Node.sizeOf_Children curNode)

/-- The entry loop changes only the writer state. -/
theorem formatEntries_frame (enc : Encoder σ) (children : List (Bytes × List Node))
    (sl : List Bytes) (lvl : Nat) (com : Bytes) :
    FrameOf enc (formatEntries enc children sl lvl com) := by
  match sl with
  | [] =>
    rw [formatEntries]
    exact frame_refl enc
  | label :: rest =>
    rw [formatEntries]
    have he1 : FrameOf enc (((enc.write [com]).indentN (lvl + 1)).write
        [bs "\"", label, bs "\": "]) :=
      frame_write (frame_indentN (frame_write (frame_refl enc) _) _) _
    refine frame_trans ?_ (formatEntries_frame _ children rest lvl _)
    refine frame_ite _ ?_ ?_
    · exact frame_write (frame_trans (frame_write he1 _) (formatArray_frame _ _ _ _)) _
    · cases hch : lookupChildren children label with
      | nil => exact he1
      | cons ch chtl => exact frame_trans he1 (format_frame _ ch (lvl + 1)).1
termination_by (sizeOf children, 1 + sl.length)
decreasing_by
  · have hle : sizeOf (lookupChildren children label) ≤ sizeOf children :=
      sizeOf_lookupChildren children label
    rcases Nat.lt_or_ge (sizeOf (lookupChildren children label)) (sizeOf children) with hlt | hge
    · exact Prod.Lex.left _ _ hlt
    · have heq : sizeOf (lookupChildren children label) = sizeOf children :=
        le_antisymm hle hge
      rw [heq]
      exact Prod.Lex.right _ (by omega)
  · have hle : sizeOf (lookupChildren children label) ≤ sizeOf children :=
      sizeOf_lookupChildren children label
    rw [hch] at hle
    simp only [List.cons.sizeOf_spec] at hle
    exact Prod.Lex.left _ _ (by omega)
  · have hlen : rest.length < (label :: rest).length := by simp
    exact Prod.Lex.right _ (by omega)

/-- The array loop changes only the writer state. -/
theorem formatArray_frame (enc : Encoder σ) (chs : List Node) (lvl : Nat) (com1 : Bytes) :
    FrameOf enc (formatArray enc chs lvl com1) := by
  match chs with
  | [] =>
    rw [formatArray]
    exact frame_refl enc
  | ch :: rest =>
    rw [formatArray]
    refine frame_trans ?_ (formatArray_frame _ rest lvl _)
    exact frame_trans (frame_write (frame_refl enc) _) (format_frame _ ch (lvl + 2)).1
termination_by (sizeOf chs, 0)
decreasing_by
  · exact Prod.Lex.left _ _ (by simp only [List.cons.sizeOf_spec]; omega)
  · exact Prod.Lex.left _ _ (by simp only [List.cons.sizeOf_spec]; omega)

end

/-- `s` repeated `n` times. -/
def repBytes (s : Bytes) : Nat → Bytes
  | 0 => []
  | n + 1 => s ++ repBytes s n

/-- The newline written after `{` and after the content entry in indent
mode. -/
def nlIf (ind : Bool) : Bytes :=
  if ind then bs "\n" else []

/-- The separator between key-value pairs: `",\n"` indented, `", "`
compact (lines 133-137 of `encoder.go`). -/
def sepOf (ind : Bool) : Bytes :=
  if ind then bs ",\n" else bs ", "

/-- What `indentN n` writes: `indentText` repeated `n` times in indent
mode, nothing otherwise. -/
def indRep (ind : Bool) (it : Bytes) (n : Nat) : Bytes :=
  if ind then repBytes it n else []

/-- An encoder over the collecting writer with explicit field values. -/
def mkE (ws : Bytes) (er : Option GoErr) (cPre aPre : Bytes) (ind : Bool) (it : Bytes) :
    Encoder Bytes :=
  { writeFn := collect
    ws := ws
    err := er
    contentPrefix := cPre
    attributePrefix := aPre
    indent := ind
    indentText := it }

@[simp] theorem mkE_writeFn : (mkE ws er cPre aPre ind it).writeFn = collect := rfl

@[simp] theorem mkE_ws : (mkE ws er cPre aPre ind it).ws = ws := rfl

@[simp] theorem mkE_err : (mkE ws er cPre aPre ind it).err = er := rfl

@[simp] theorem mkE_cPre : (mkE ws er cPre aPre ind it).contentPrefix = cPre := rfl

@[simp] theorem mkE_aPre : (mkE ws er cPre aPre ind it).attributePrefix = aPre := rfl

@[simp] theorem mkE_ind : (mkE ws er cPre aPre ind it).indent = ind := rfl

@[simp] theorem mkE_it : (mkE ws er cPre aPre ind it).indentText = it := rfl

/-- Writing on a collecting encoder appends the written strings. -/
theorem mkE_write (ws : Bytes) (er : Option GoErr) (cPre aPre : Bytes) (ind : Bool)
    (it : Bytes) (ss : List Bytes) :
    (mkE ws er cPre aPre ind it).write ss = mkE (ws ++ ss.flatten) er cPre aPre ind it := by
  induction ss generalizing ws with
  | nil => simp [Encoder.write_nil, mkE]
  | cons s rest ih =>
    rw [Encoder.write_cons]
    show (mkE (ws ++ s) er cPre aPre ind it).write rest = _
    rw [ih]
    simp [mkE, List.append_assoc]

/-- `writeN` on a collecting encoder appends `n` copies. -/
theorem mkE_writeN (ws : Bytes) (er : Option GoErr) (cPre aPre : Bytes) (ind : Bool)
    (it s : Bytes) (n : Nat) :
    (mkE ws er cPre aPre ind it).writeN s n = mkE (ws ++ repBytes s n) er cPre aPre ind it := by
  induction n generalizing ws with
  | zero => simp [Encoder.writeN, repBytes]
  | succ m ih =>
    show ((mkE ws er cPre aPre ind it).write [s]).writeN s m = _
    rw [mkE_write, ih]
    simp [repBytes, List.append_assoc]

/-- `indentN` on a collecting encoder appends the indent run. -/
theorem mkE_indentN (ws : Bytes) (er : Option GoErr) (cPre aPre : Bytes) (ind : Bool)
    (it : Bytes) (n : Nat) :
    (mkE ws er cPre aPre ind it).indentN n = mkE (ws ++ indRep ind it n) er cPre aPre ind it := by
  unfold Encoder.indentN indRep
  cases ind with
  | true => simp [mkE_writeN]
  | false => simp [mkE]

mutual

/-- The byte string `format` writes for a node: pure counterpart of the
traversal, mirroring it branch for branch. -/
def render (cPre : Bytes) (ind : Bool) (it : Bytes) (n : Node) (lvl : Nat) : Bytes :=
  if n.HasChildren then
    bs "\x7b" ++ nlIf ind
      ++ (if 0 < n.Data.length then
            indRep ind it (lvl + 1) ++ bs "\"" ++ cPre ++ bs "content" ++ bs "\": "
              ++ sanitiseString n.Data ++ bs ", " ++ nlIf ind
          else [])
      ++ renderEntries cPre ind it n.Children (slOf n.Children) lvl []
      ++ bs "\n" ++ indRep ind it lvl ++ bs "\x7d"
  else
    sanitiseString n.Data
termination_by (sizeOf n, 0)
decreasing_by
  exact Prod.Lex.left _ _ (Node.sizeOf_Children n)

/-- Pure counterpart of the entry loop. -/
def renderEntries (cPre : Bytes) (ind : Bool) (it : Bytes)
    (children : List (Bytes × List Node)) (sl : List Bytes) (lvl : Nat) (com : Bytes) : Bytes :=
  match sl with
  | [] => []
  | label :: rest =>
    com ++ indRep ind it (lvl + 1) ++ bs "\"" ++ label ++ bs "\": "
      ++ (if 1 < (lookupChildren children label).length then
            bs "[" ++ renderArray cPre ind it (lookupChildren children label) lvl [] ++ bs "]"
          else
            match hh : lookupChildren children label with
            | [] => []
            | ch :: chtl => render cPre ind it ch (lvl + 1))
      ++ renderEntries cPre ind it children rest lvl (sepOf ind)
termination_by (sizeOf children, 1 + sl.length)
decreasing_by
  · have hle : sizeOf (lookupChildren children label) ≤ sizeOf children :=
      sizeOf_lookupChildren children label
    rcases Nat.lt_or_ge (sizeOf (lookupChildren children label)) (sizeOf children) with hlt | hge
    · exact Prod.Lex.left _ _ hlt
    · have heq : sizeOf (lookupChildren children label) = sizeOf children :=
        le_antisymm hle hge
      rw [heq]
      exact Prod.Lex.right _ (by omega)
  · have hle : sizeOf (lookupChildren children label) ≤ sizeOf children :=
      sizeOf_lookupChildren children label
    rw [hh] at hle
    simp only [List.cons.sizeOf_spec] at hle
    exact Prod.Lex.left _ _ (by omega)
  · have hlen : rest.length < (label :: rest).length := by simp
    exact Prod.Lex.right _ (by omega)

/-- Pure counterpart of the array loop. -/
def renderArray (cPre : Bytes) (ind : Bool) (it : Bytes) (chs : List Node) (lvl : Nat)
    (com1 : Bytes) : Bytes :=
  match chs with
  | [] => []
  | ch :: rest =>
    com1 ++ render cPre ind it ch (lvl + 2) ++ renderArray cPre ind it rest lvl (bs ", ")
termination_by (sizeOf chs, 0)
decreasing_by
  · exact Prod.Lex.left _ _ (by simp only [List.cons.sizeOf_spec]; omega)
  · exact Prod.Lex.left _ _ (by simp only [List.cons.sizeOf_spec]; omega)

end

mutual

/-- On a collecting encoder, `format` appends exactly `render`'s bytes
and returns `nil`, leaving every other field unchanged. -/
theorem format_mkE (ws : Bytes) (er : Option GoErr) (cPre aPre : Bytes) (ind : Bool)
    (it : Bytes) (curNode : Node) (lvl : Nat) :
    format (mkE ws er cPre aPre ind it) curNode lvl =
      (mkE (ws ++ render cPre ind it curNode lvl) er cPre aPre ind it, none) := by
  rw [format, render]
  by_cases hc : curNode.HasChildren = true
  · rw [if_pos hc, if_pos hc]
    simp only [mkE_ind, mkE_cPre]
    by_cases hd : 0 < curNode.Data.length
    · cases ind with
      | true =>
        simp only [eq_self_iff_true, if_true, if_pos hd]
        simp only [mkE_write, mkE_indentN]
        rw [formatEntries_mkE]
        simp only [mkE_write, mkE_indentN]
        simp [nlIf, List.append_assoc]
      | false =>
        simp only [Bool.false_eq_true, if_false, if_pos hd]
        simp only [mkE_write, mkE_indentN]
        rw [formatEntries_mkE]
        simp only [mkE_write, mkE_indentN]
        simp [nlIf, List.append_assoc]
    · cases ind with
      | true =>
        simp only [eq_self_iff_true, if_true, if_neg hd]
        simp only [mkE_write, mkE_indentN]
        rw [formatEntries_mkE]
        simp only [mkE_write, mkE_indentN]
        simp [nlIf, List.append_assoc]
      | false =>
        simp only [Bool.false_eq_true, if_false, if_neg hd]
        simp only [mkE_write, mkE_indentN]
        rw [formatEntries_mkE]
        simp only [mkE_write, mkE_indentN]
        simp [nlIf, List.append_assoc]
  · rw [if_neg hc, if_neg hc]
    rw [mkE_write]
    simp
termination_by (sizeOf curNode, 0)
decreasing_by
  all_goals exact Prod.Lex.left _ _ (Node.sizeOf_Children curNode)

/-- On a collecting encoder, the entry loop appends `renderEntries`. -/
theorem formatEntries_mkE (ws : Bytes) (er : Option GoErr) (cPre aPre : Bytes) (ind : Bool)
    (it : Bytes) (children : List (Bytes × List Node)) (sl : List Bytes) (lvl : Nat)
    (com : Bytes) :
    formatEntries (mkE ws er cPre aPre ind it) children sl lvl com =
      mkE (ws ++ renderEntries cPre ind it children sl lvl com) er cPre aPre ind it := by
  match sl with
  | [] =>
    rw [formatEntries, renderEntries]
    simp
  | label :: rest =>
    rw [formatEntries, renderEntries]
    simp only [mkE_ind, mkE_cPre]
    by_cases ha : 1 < (lookupChildren children label).length
    · rw [if_pos ha, if_pos ha]
      simp only [mkE_write, mkE_indentN]
      rw [formatArray_mkE]
      simp only [mkE_write, mkE_indentN]
      rw [formatEntries_mkE]
      simp [sepOf, List.append_assoc]
    · rw [if_neg ha, if_neg ha]
      cases hch : lookupChildren children label with
      | nil =>
        simp only [mkE_write, mkE_indentN]
        rw [formatEntries_mkE]
        simp [sepOf, List.append_assoc]
      | cons ch chtl =>
        simp only [mkE_write, mkE_indentN]
        rw [format_mkE]
        rw [formatEntries_mkE]
        simp [sepOf, List.append_assoc]
termination_by (sizeOf children, 1 + sl.length)
decreasing_by
  all_goals first
    | exact Prod.Lex.right _ (by simp only [List.length_cons]; omega)
    | (have hle : sizeOf (lookupChildren children label) ≤ sizeOf children :=
         sizeOf_lookupChildren children label
       rw [hch] at hle
       simp only [List.cons.sizeOf_spec] at hle
       exact Prod.Lex.left _ _ (by omega))
    | (have hle : sizeOf (lookupChildren children label) ≤ sizeOf children :=
         sizeOf_lookupChildren children label
       rcases Nat.lt_or_ge (sizeOf (lookupChildren children label)) (sizeOf children) with hlt | hge
       · exact Prod.Lex.left _ _ hlt
       · have heq : sizeOf (lookupChildren children label) = sizeOf children :=
           le_antisymm hle hge
         rw [heq]
         exact Prod.Lex.right _ (by omega))

/-- On a collecting encoder, the array loop appends `renderArray`. -/
theorem formatArray_mkE (ws : Bytes) (er : Option GoErr) (cPre aPre : Bytes) (ind : Bool)
    (it : Bytes) (chs : List Node) (lvl : Nat) (com1 : Bytes) :
    formatArray (mkE ws er cPre aPre ind it) chs lvl com1 =
      mkE (ws ++ renderArray cPre ind it chs lvl com1) er cPre aPre ind it := by
  match chs with
  | [] =>
    rw [formatArray, renderArray]
    simp
  | ch :: rest =>
    rw [formatArray, renderArray]
    simp only [mkE_write]
    rw [format_mkE]
    rw [formatArray_mkE]
    simp [List.append_assoc]
termination_by (sizeOf chs, 0)
decreasing_by
  all_goals exact Prod.Lex.left _ _ (by simp only [List.cons.sizeOf_spec]; omega)

end

/-- Join a list of byte strings with a separator. -/
def joinSep (sep : Bytes) : List Bytes → Bytes
  | [] => []
  | [a] => a
  | a :: b :: t => a ++ sep ++ joinSep sep (b :: t)

theorem joinSep_cons₂ (sep a b : Bytes) (t : List Bytes) :
    joinSep sep (a :: b :: t) = a ++ sep ++ joinSep sep (b :: t) := rfl

theorem renderArray_nil (cPre : Bytes) (ind : Bool) (it : Bytes) (lvl : Nat) (com1 : Bytes) :
    renderArray cPre ind it [] lvl com1 = [] := by
  rw [renderArray]

/-- Closed form of the array loop: elements rendered independently at
`lvl + 2`, joined by `", "`, in list (insertion) order. -/
theorem renderArray_eq (cPre : Bytes) (ind : Bool) (it : Bytes) (chs : List Node)
    (lvl : Nat) (com1 : Bytes) (h : chs ≠ []) :
    renderArray cPre ind it chs lvl com1 =
      com1 ++ joinSep (bs ", ") (chs.map (fun ch => render cPre ind it ch (lvl + 2))) := by
  induction chs generalizing com1 with
  | nil => exact absurd rfl h
  | cons ch rest ih =>
    rw [renderArray]
    cases rest with
    | nil =>
      rw [renderArray_nil]
      simp [joinSep]
    | cons b t =>
      rw [ih (bs ", ") (by simp)]
      simp [joinSep_cons₂, List.append_assoc]

/-- The rendered entry of one label: key, then either an array of the
independently rendered occurrences or the sole occurrence directly. -/
def entryRender (cPre : Bytes) (ind : Bool) (it : Bytes)
    (children : List (Bytes × List Node)) (lvl : Nat) (label : Bytes) : Bytes :=
  indRep ind it (lvl + 1) ++ bs "\"" ++ label ++ bs "\": "
    ++ (if 1 < (lookupChildren children label).length then
          bs "[" ++ joinSep (bs ", ")
              ((lookupChildren children label).map (fun ch => render cPre ind it ch (lvl + 2)))
            ++ bs "]"
        else
          match lookupChildren children label with
          | [] => []
          | ch :: _ => render cPre ind it ch (lvl + 1))

theorem renderEntries_nil (cPre : Bytes) (ind : Bool) (it : Bytes)
    (children : List (Bytes × List Node)) (lvl : Nat) (com : Bytes) :
    renderEntries cPre ind it children [] lvl com = [] := by
  rw [renderEntries]

/-- Closed form of the entry loop: entries of the labels in `sl` order,
joined by the mode's separator. -/
theorem renderEntries_eq (cPre : Bytes) (ind : Bool) (it : Bytes)
    (children : List (Bytes × List Node)) (sl : List Bytes) (lvl : Nat) (com : Bytes)
    (h : sl ≠ []) :
    renderEntries cPre ind it children sl lvl com =
      com ++ joinSep (sepOf ind) (sl.map (entryRender cPre ind it children lvl)) := by
  induction sl generalizing com with
  | nil => exact absurd rfl h
  | cons label rest ih =>
    rw [renderEntries]
    by_cases ha : 1 < (lookupChildren children label).length
    · rw [if_pos ha]
      rw [renderArray_eq _ _ _ _ _ _ (by intro hcon; rw [hcon] at ha; simp at ha)]
      cases rest with
      | nil =>
        rw [renderEntries_nil]
        simp [entryRender, if_pos ha, joinSep, List.append_assoc]
      | cons b t =>
        rw [ih (sepOf ind) (by simp)]
        simp [entryRender, if_pos ha, joinSep_cons₂, List.append_assoc]
    · rw [if_neg ha]
      split
      · rename_i heq
        cases rest with
        | nil =>
          rw [renderEntries_nil]
          simp [entryRender, if_neg ha, heq, joinSep, List.append_assoc]
        | cons b t =>
          rw [ih (sepOf ind) (by simp)]
          simp [entryRender, if_neg ha, heq, joinSep_cons₂, List.append_assoc]
      · rename_i ch chtl heq
        have hlen : chtl.length = 0 := by
          have hx := ha
          rw [heq] at hx
          simp only [List.length_cons] at hx
          omega
        cases rest with
        | nil =>
          rw [renderEntries_nil]
          simp [entryRender, if_neg ha, heq, hlen, joinSep, List.append_assoc]
        | cons b t =>
          rw [ih (sepOf ind) (by simp)]
          simp [entryRender, if_neg ha, heq, hlen, joinSep_cons₂, List.append_assoc]

theorem slOf_length (children : List (Bytes × List Node)) :
    (slOf children).length = children.length := by
  simp only [slOf]
  split
  · simp [sortStrings]
  · simp

theorem slOf_ne_nil (children : List (Bytes × List Node)) (h : 0 < children.length) :
    slOf children ≠ [] := by
  intro hcon
  have hl := slOf_length children
  rw [hcon] at hl
  simp at hl
  omega

/-- The emitted label list is always sorted (single labels trivially). -/
theorem slOf_sorted (children : List (Bytes × List Node)) :
    (slOf children).Sorted strLe := by
  simp only [slOf]
  split
  · exact List.sorted_insertionSort strLe _
  · rename_i hnot
    cases hsl : children.map Prod.fst with
    | nil => simp
    | cons a tl =>
      cases tl with
      | nil => simp
      | cons b t =>
        rw [hsl] at hnot
        simp at hnot

/-- The emitted label list is a permutation of the collected labels. -/
theorem slOf_perm (children : List (Bytes × List Node)) :
    List.Perm (slOf children) (children.map Prod.fst) := by
  simp only [slOf]
  split
  · exact List.perm_insertionSort strLe _
  · exact List.Perm.refl _

/-- A label present in the map looks up to an entry of the map. -/
theorem lookup_mem (children : List (Bytes × List Node)) (l : Bytes)
    (h : l ∈ children.map Prod.fst) :
    (l, lookupChildren children l) ∈ children := by
  induction children with
  | nil => simp at h
  | cons p rest ih =>
    cases p with
    | mk l' chs =>
      rw [lookupChildren]
      by_cases he : l' = l
      · subst he
        rw [if_pos rfl]
        exact List.mem_cons_self _ _
      · rw [if_neg he]
        simp only [List.map_cons, List.mem_cons] at h
        rcases h with h | h
        · exact absurd h.symm he
        · exact List.mem_cons_of_mem _ (ih h)

/-- With distinct keys, lookup returns the unique associated sequence. -/
theorem lookup_eq_of_mem (children : List (Bytes × List Node)) (l : Bytes)
    (chs : List Node) (hmem : (l, chs) ∈ children)
    (hnd : (children.map Prod.fst).Nodup) :
    lookupChildren children l = chs := by
  induction children with
  | nil => simp at hmem
  | cons p rest ih =>
    cases p with
    | mk l' chs' =>
      rw [lookupChildren]
      simp only [List.map_cons, List.nodup_cons] at hnd
      rcases List.mem_cons.mp hmem with heq | hmem'
      · have h1 : l = l' := congrArg Prod.fst heq
        have h2 : chs = chs' := congrArg Prod.snd heq
        rw [if_pos h1.symm]
        exact h2.symm
      · by_cases he : l' = l
        · subst he
          exact absurd (List.mem_map_of_mem Prod.fst hmem') hnd.1
        · rw [if_neg he]
          exact ih hmem' hnd.2

/-- A label not in the map looks up to the nil slice. -/
theorem lookup_not_mem (children : List (Bytes × List Node)) (l : Bytes)
    (h : l ∉ children.map Prod.fst) :
    lookupChildren children l = [] := by
  induction children with
  | nil => rfl
  | cons p rest ih =>
    cases p with
    | mk l' chs' =>
      rw [lookupChildren]
      simp only [List.map_cons, List.mem_cons, not_or] at h
      rw [if_neg (fun hc => h.1 hc.symm)]
      exact ih h.2

/-- Under the spec §3 invariant, present labels look up non-nil. -/
theorem lookup_ne_nil (children : List (Bytes × List Node)) (l : Bytes)
    (hin : l ∈ children.map Prod.fst)
    (hne : ∀ p ∈ children, p.2 ≠ ([] : List Node)) :
    lookupChildren children l ≠ [] :=
  hne _ (lookup_mem children l hin)

/-- Closed form of `render` on a container node. -/
theorem render_container (cPre : Bytes) (ind : Bool) (it dta : Bytes)
    (children : List (Bytes × List Node)) (lvl : Nat) (h : 0 < children.length) :
    render cPre ind it (Node.mk dta children) lvl =
      bs "\x7b" ++ nlIf ind
        ++ (if 0 < dta.length then
              indRep ind it (lvl + 1) ++ bs "\"" ++ cPre ++ bs "content" ++ bs "\": "
                ++ sanitiseString dta ++ bs ", " ++ nlIf ind
            else [])
        ++ joinSep (sepOf ind) ((slOf children).map (entryRender cPre ind it children lvl))
        ++ bs "\n" ++ indRep ind it lvl ++ bs "\x7d" := by
  rw [render]
  have hc : (Node.mk dta children).HasChildren = true := by
    simp [Node.HasChildren, Node.Children]
    omega
  rw [if_pos hc]
  rw [show (Node.mk dta children).Children = children from rfl]
  rw [renderEntries_eq _ _ _ _ _ _ _ (slOf_ne_nil children h)]
  rw [show (Node.mk dta children).Data = dta from rfl]
  simp

/-- Closed form of `render` on a leaf node. -/
theorem render_leaf (cPre : Bytes) (ind : Bool) (it dta : Bytes) (lvl : Nat) :
    render cPre ind it (Node.mk dta []) lvl = sanitiseString dta := by
  rw [render]
  rw [if_neg (by simp [Node.HasChildren, Node.Children])]
  rfl

theorem Encoder.write_err (enc : Encoder σ) (ss : List Bytes) :
    (enc.write ss).err = enc.err := by
  rw [Encoder.write_eq_ws enc ss]

@[simp] theorem mkE_set_err (ws : Bytes) (er er2 : Option GoErr) (cPre aPre : Bytes)
    (ind : Bool) (it : Bytes) :
    ({ mkE ws er cPre aPre ind it with err := er2 } : Encoder Bytes) =
      mkE ws er2 cPre aPre ind it := rfl

/-- `Encode` with a stored error short-circuits and writes nothing. -/
theorem Encode_stored_err (enc : Encoder σ) (e : GoErr) (h : enc.err = some e)
    (root : Option Node) :
    Encode enc root = (enc, some e) := by
  unfold Encode
  rw [h]

/-- `Encode` on a nil root writes nothing and succeeds. -/
theorem Encode_none (enc : Encoder σ) (h : enc.err = none) :
    Encode enc none = (enc, none) := by
  unfold Encode
  rw [h]

/-- `Encode` on a non-nil root, unfolded. -/
theorem Encode_some_eq (enc : Encoder σ) (h : enc.err = none) (r : Node) :
    Encode enc (some r) =
      (({ (format enc r 0).1 with err := (format enc r 0).2 } : Encoder σ).write [bs "\n"],
        (({ (format enc r 0).1 with err := (format enc r 0).2 } : Encoder σ).write
          [bs "\n"]).err) := by
  unfold Encode
  rw [h]

/-- `Encode` on the collecting encoder: appends the rendering plus one
newline, succeeds, and leaves configuration and stored error alone. -/
theorem Encode_mkE (ws cPre aPre : Bytes) (ind : Bool) (it : Bytes) (r : Node) :
    Encode (mkE ws none cPre aPre ind it) (some r) =
      (mkE (ws ++ render cPre ind it r 0 ++ bs "\n") none cPre aPre ind it, none) := by
  rw [Encode_some_eq _ rfl r]
  rw [format_mkE]
  show ((mkE (ws ++ render cPre ind it r 0) none cPre aPre ind it).write [bs "\n"],
      ((mkE (ws ++ render cPre ind it r 0) none cPre aPre ind it).write [bs "\n"]).err) = _
  rw [mkE_write]
  simp [List.append_assoc]

/-- `Encode` changes only the writer state; it returns `nil` and leaves
the stored error `nil` whenever it was `nil` before the call. -/
theorem Encode_frame (enc : Encoder σ) (root : Option Node) (h : enc.err = none) :
    FrameOf enc (Encode enc root).1 ∧ (Encode enc root).2 = none := by
  cases root with
  | none =>
    rw [Encode_none enc h]
    exact ⟨frame_refl enc, rfl⟩
  | some r =>
    rw [Encode_some_eq enc h r]
    have hfr := (format_frame enc r 0).1
    have hsnd := (format_frame enc r 0).2
    have he1 : FrameOf enc ({ (format enc r 0).1 with err := (format enc r 0).2 } : Encoder σ) := by
      rw [hsnd]
      unfold FrameOf at hfr ⊢
      rw [← h]
      conv_lhs => rw [hfr]
    refine ⟨frame_write he1 _, ?_⟩
    rw [Encoder.write_err]
    rw [hsnd]

/-- Dropping at least one element of a non-empty list shortens it. -/
theorem drop_length_lt (l : Bytes) (size : Nat) (h : 1 ≤ size) (hne : l ≠ []) :
    (l.drop size).length < l.length := by
  cases l with
  | nil => exact absurd rfl hne
  | cons a t =>
    simp only [List.length_drop, List.length_cons]
    omega

/-- Modelled from the spec (§4.2): the escape for a byte of the ASCII
escape set — `\` and `"` become `\\` and `\"`; newline, carriage
return and tab become `\n`, `\r`, `\t`; every other byte of the set
becomes `\u00XX` with lowercase hex of its two low nibbles. -/
def specEsc (b : Nat) : Bytes :=
  if b = 0x5C then bs "\\\\"
  else if b = 0x22 then bs "\\\""
  else if b = 0x0A then bs "\\n"
  else if b = 0x0D then bs "\\r"
  else if b = 0x09 then bs "\\t"
  else bs "\\u00" ++ [hexAt (b / 16), hexAt (b % 16)]

/-- Modelled from the spec (§4.2): one left-to-right pass mapping each
unit independently — ASCII bytes below 0x20 and `\ " < > &` are
escaped, every other ASCII byte passes through; each invalid encoding
unit becomes `�`; U+2028/U+2029 become ` `/` `; every
other code point passes through unescaped. -/
def specBody (s : Bytes) : Bytes :=
  match s with
  | [] => []
  | b :: rest =>
    if b < 0x80 then
      (if b < 0x20 ∨ b = 0x5C ∨ b = 0x22 ∨ b = 0x3C ∨ b = 0x3E ∨ b = 0x26 then specEsc b
       else [b]) ++ specBody rest
    else
      let c := (decodeRune (b :: rest)).1
      let size := (decodeRune (b :: rest)).2
      if c = 0xFFFD ∧ size = 1 then bs "\\ufffd" ++ specBody rest
      else if c = 0x2028 then bs "\\u2028" ++ specBody ((b :: rest).drop size)
      else if c = 0x2029 then bs "\\u2029" ++ specBody ((b :: rest).drop size)
      else (b :: rest).take size ++ specBody ((b :: rest).drop size)
termination_by s.length
decreasing_by
  all_goals first
    | (simp only [List.length_cons]; omega)
    | (apply drop_length_lt _ _ (decodeRune_size_pos _ (by simp)) (by simp))

/-- The two escape tables agree byte for byte. -/
theorem escASCII_eq_specEsc (b : Nat) : escASCII b = specEsc b := by
  unfold escASCII specEsc
  by_cases h1 : b = 0x5C
  · subst h1; decide
  by_cases h2 : b = 0x22
  · subst h2; decide
  by_cases h3 : b = 0x0A
  · subst h3; decide
  by_cases h4 : b = 0x0D
  · subst h4; decide
  by_cases h5 : b = 0x09
  · subst h5; decide
  rw [if_neg (by simp [h1, h2]), if_neg h3, if_neg h4, if_neg h5]
  rw [if_neg h1, if_neg h2, if_neg h3, if_neg h4, if_neg h5]

theorem goSlice_self (s : Bytes) (i : Nat) : goSlice s i i = [] := by
  simp [goSlice]

theorem drop_eq_getD_cons (s : Bytes) (i : Nat) (h : i < s.length) :
    s.drop i = s.getD i 0 :: s.drop (i + 1) := by
  rw [List.drop_eq_getElem_cons h]
  congr 1
  rw [List.getD_eq_getElem?_getD, List.getElem?_eq_getElem h]
  rfl

theorem goSlice_snoc (s : Bytes) (start i : Nat) (h1 : start ≤ i) (h2 : i < s.length) :
    goSlice s start (i + 1) = goSlice s start i ++ [s.getD i 0] := by
  unfold goSlice
  have hstep : i + 1 - start = (i - start) + 1 := by omega
  rw [hstep]
  rw [List.take_succ]
  congr 1
  rw [List.getElem?_drop]
  have hadd : start + (i - start) = i := by omega
  rw [hadd, List.getElem?_eq_getElem h2]
  rw [List.getD_eq_getElem?_getD, List.getElem?_eq_getElem h2]
  rfl

theorem goSlice_append (s : Bytes) (start i j : Nat) (h1 : start ≤ i) (h2 : i ≤ j) :
    goSlice s start i ++ goSlice s i j = goSlice s start j := by
  unfold goSlice
  have hsum : j - start = (i - start) + (j - i) := by omega
  rw [hsum, List.take_add]
  congr 2
  rw [List.drop_drop]
  congr 1
  omega

theorem guard_goSlice (s : Bytes) (start i : Nat) (h : start ≤ i) :
    (if start < i then goSlice s start i else []) = goSlice s start i := by
  split
  · rfl
  · have hEq : start = i := by omega
    subst hEq
    rw [goSlice_self]

theorem drop_after (s : Bytes) (i size : Nat) :
    (s.drop i).drop size = s.drop (i + size) := by
  rw [List.drop_drop]

theorem take_of_drop (s : Bytes) (i size : Nat) :
    (s.drop i).take size = goSlice s i (i + size) := by
  unfold goSlice
  congr 1
  omega

/-- The run-copying scan loop of `sanitiseString` emits exactly the
per-unit mapping of the spec: pending run, then the mapped remainder. -/
theorem sanLoop_eq_specBody (s buf : Bytes) (start i : Nat) (h1 : start ≤ i)
    (h2 : i ≤ s.length) :
    sanLoop s buf start i = buf ++ goSlice s start i ++ specBody (s.drop i) := by
  rw [sanLoop]
  split
  · rename_i hlt
    rw [drop_eq_getD_cons s i hlt, specBody]
    by_cases hascii : s.getD i 0 < 0x80
    · rw [if_pos hascii, if_pos hascii]
      by_cases hpass : 0x20 ≤ s.getD i 0 ∧ s.getD i 0 ≠ 0x5C ∧ s.getD i 0 ≠ 0x22 ∧
          s.getD i 0 ≠ 0x3C ∧ s.getD i 0 ≠ 0x3E ∧ s.getD i 0 ≠ 0x26
      · rw [if_pos hpass]
        rw [if_neg (show ¬(s.getD i 0 < 0x20 ∨ s.getD i 0 = 0x5C ∨ s.getD i 0 = 0x22 ∨
            s.getD i 0 = 0x3C ∨ s.getD i 0 = 0x3E ∨ s.getD i 0 = 0x26) by omega)]
        rw [sanLoop_eq_specBody s buf start (i + 1) (by omega) (by omega)]
        rw [goSlice_snoc s start i h1 hlt]
        simp [List.append_assoc]
      · rw [if_neg hpass]
        rw [if_pos (show s.getD i 0 < 0x20 ∨ s.getD i 0 = 0x5C ∨ s.getD i 0 = 0x22 ∨
            s.getD i 0 = 0x3C ∨ s.getD i 0 = 0x3E ∨ s.getD i 0 = 0x26 by omega)]
        rw [sanLoop_eq_specBody s _ (i + 1) (i + 1) (le_refl _) (by omega)]
        rw [guard_goSlice s start i h1, goSlice_self, escASCII_eq_specEsc]
        simp [List.append_assoc]
    · rw [if_neg hascii, if_neg hascii]
      have hne' : (s.getD i 0 :: s.drop (i + 1)) ≠ [] := by simp
      have hsz1 : 1 ≤ (decodeRune (s.getD i 0 :: s.drop (i + 1))).2 :=
        decodeRune_size_pos _ hne'
      have hszle : (decodeRune (s.getD i 0 :: s.drop (i + 1))).2 ≤ s.length - i := by
        have hx := decodeRune_size_le (s.getD i 0 :: s.drop (i + 1))
        simp only [List.length_cons, List.length_drop] at hx
        omega
      set size := (decodeRune (s.getD i 0 :: s.drop (i + 1))).2 with hsizedef
      by_cases hbad : (decodeRune (s.getD i 0 :: s.drop (i + 1))).1 = 0xFFFD ∧ size = 1
      · rw [if_pos hbad, if_pos hbad]
        rw [sanLoop_eq_specBody s _ (i + size) (i + size) (le_refl _) (by omega)]
        rw [guard_goSlice s start i h1, goSlice_self]
        rw [hbad.2]
        simp [List.append_assoc]
      · rw [if_neg hbad, if_neg hbad]
        by_cases h28 : (decodeRune (s.getD i 0 :: s.drop (i + 1))).1 = 0x2028 ∨
            (decodeRune (s.getD i 0 :: s.drop (i + 1))).1 = 0x2029
        · rw [if_pos h28]
          rw [sanLoop_eq_specBody s _ (i + size) (i + size) (le_refl _) (by omega)]
          rw [guard_goSlice s start i h1, goSlice_self]
          rcases h28 with h28 | h28
          · rw [if_pos h28, h28]
            rw [← drop_eq_getD_cons s i hlt, drop_after]
            have hhex : bs "\\u202" ++ [hexAt (0x2028 % 16)] = bs "\\u2028" := by decide
            rw [hhex]
            simp [List.append_assoc]
          · rw [if_neg (show ¬(decodeRune (s.getD i 0 :: s.drop (i + 1))).1 = 0x2028 by omega)]
            rw [if_pos h28, h28]
            rw [← drop_eq_getD_cons s i hlt, drop_after]
            have hhex : bs "\\u202" ++ [hexAt (0x2029 % 16)] = bs "\\u2029" := by decide
            rw [hhex]
            simp [List.append_assoc]
        · rw [if_neg h28]
          rw [if_neg (show ¬(decodeRune (s.getD i 0 :: s.drop (i + 1))).1 = 0x2028 from
            fun hc => h28 (Or.inl hc))]
          rw [if_neg (show ¬(decodeRune (s.getD i 0 :: s.drop (i + 1))).1 = 0x2029 from
            fun hc => h28 (Or.inr hc))]
          rw [sanLoop_eq_specBody s buf start (i + size) (by omega) (by omega)]
          rw [← drop_eq_getD_cons s i hlt, drop_after, take_of_drop]
          rw [← goSlice_append s start i (i + size) h1 (by omega)]
          simp [List.append_assoc]
  · rename_i hge
    have hieq : i = s.length := by omega
    subst hieq
    rw [List.drop_length]
    rw [guard_goSlice s start s.length h1]
    simp [specBody]
termination_by s.length - i
decreasing_by
  all_goals omega

/-- The sanitizer is exactly the spec's per-unit mapping, wrapped in
double quotes. -/
theorem sanitiseString_eq (s : Bytes) :
    sanitiseString s = 0x22 :: specBody s ++ [0x22] := by
  unfold sanitiseString
  rw [sanLoop_eq_specBody s [0x22] 0 0 (le_refl 0) (by omega)]
  rw [goSlice_self]
  simp

/-- A hex digit byte (`0-9`, `a-f`, `A-F`). -/
def isHexDigit (b : Nat) : Prop :=
  (0x30 ≤ b ∧ b ≤ 0x39) ∨ (0x61 ≤ b ∧ b ≤ 0x66) ∨ (0x41 ≤ b ∧ b ≤ 0x46)

/-- A UTF-8 continuation byte. -/
def contB (b : Nat) : Prop := 0x80 ≤ b ∧ b ≤ 0xBF

instance (b : Nat) : Decidable (isHexDigit b) := by
  unfold isHexDigit
  infer_instance

instance (b : Nat) : Decidable (contB b) := by
  unfold contB
  infer_instance

/-- One syntactic unit of a JSON string body (RFC 8259 `char`,
with raw characters required to be strictly valid UTF-8). -/
inductive JItem : Bytes → Prop
  | esc (b : Nat)
      (h : b = 0x22 ∨ b = 0x5C ∨ b = 0x2F ∨ b = 0x62 ∨ b = 0x66 ∨ b = 0x6E ∨
        b = 0x72 ∨ b = 0x74) :
      JItem [0x5C, b]
  | uesc (h1 h2 h3 h4 : Nat) (e1 : isHexDigit h1) (e2 : isHexDigit h2)
      (e3 : isHexDigit h3) (e4 : isHexDigit h4) :
      JItem [0x5C, 0x75, h1, h2, h3, h4]
  | raw1 (b : Nat) (hb : 0x20 ≤ b ∧ b < 0x80 ∧ b ≠ 0x22 ∧ b ≠ 0x5C) : JItem [b]
  | raw2 (b0 b1 : Nat) (h0 : 0xC2 ≤ b0 ∧ b0 ≤ 0xDF) (h1 : contB b1) : JItem [b0, b1]
  | raw3 (b0 b1 b2 : Nat) (h0 : 0xE0 ≤ b0 ∧ b0 ≤ 0xEF)
      (h1 : if b0 = 0xE0 then 0xA0 ≤ b1 ∧ b1 ≤ 0xBF
            else if b0 = 0xED then 0x80 ≤ b1 ∧ b1 ≤ 0x9F
            else contB b1)
      (h2 : contB b2) : JItem [b0, b1, b2]
  | raw4 (b0 b1 b2 b3 : Nat) (h0 : 0xF0 ≤ b0 ∧ b0 ≤ 0xF4)
      (h1 : if b0 = 0xF0 then 0x90 ≤ b1 ∧ b1 ≤ 0xBF
            else if b0 = 0xF4 then 0x80 ≤ b1 ∧ b1 ≤ 0x8F
            else contB b1)
      (h2 : contB b2) (h3 : contB b3) : JItem [b0, b1, b2, b3]

/-- A JSON string body: a concatenation of items. -/
inductive JBody : Bytes → Prop
  | nil : JBody []
  | cons (u r : Bytes) (hu : JItem u) (hr : JBody r) : JBody (u ++ r)

/-- Valid JSON string literal text: quote, body, quote. -/
def JSONStringLit (l : Bytes) : Prop :=
  ∃ body, JBody body ∧ l = 0x22 :: body ++ [0x22]

theorem JBody_append (a b : Bytes) (ha : JBody a) (hb : JBody b) : JBody (a ++ b) := by
  induction ha with
  | nil => simpa using hb
  | cons u r hu _ ih =>
    rw [List.append_assoc]
    exact JBody.cons u (r ++ b) hu ih

theorem JBody_single (u : Bytes) (hu : JItem u) : JBody u := by
  have h := JBody.cons u [] hu JBody.nil
  simpa using h

theorem hexAt_isHexDigit (n : Nat) (h : n < 16) : isHexDigit (hexAt n) := by
  revert h
  revert n
  decide

theorem JBody_specEsc (b : Nat) (hb : b < 256) : JBody (specEsc b) := by
  unfold specEsc
  split_ifs with e1 e2 e3 e4 e5
  · exact JBody_single _ (JItem.esc 0x5C (by omega))
  · exact JBody_single _ (JItem.esc 0x22 (by omega))
  · exact JBody_single _ (JItem.esc 0x6E (by omega))
  · exact JBody_single _ (JItem.esc 0x72 (by omega))
  · exact JBody_single _ (JItem.esc 0x74 (by omega))
  · refine JBody_single _ ?_
    have hsh : bs "\\u00" ++ [hexAt (b / 16), hexAt (b % 16)] =
        [0x5C, 0x75, 0x30, 0x30, hexAt (b / 16), hexAt (b % 16)] := by
      rfl
    rw [hsh]
    have hfour : ([0x5C, 0x75, 0x30, 0x30, hexAt (b / 16), hexAt (b % 16)] : Bytes) =
        [0x5C, 0x75] ++ [0x30, 0x30, hexAt (b / 16), hexAt (b % 16)] := rfl
    exact JItem.uesc 0x30 0x30 (hexAt (b / 16)) (hexAt (b % 16))
      (by decide) (by decide)
      (hexAt_isHexDigit _ (by omega)) (hexAt_isHexDigit _ (by omega))

/-- A successful multi-byte decode consumes a strictly valid UTF-8
sequence: the consumed bytes form a raw JSON item. -/
theorem decodeRune_valid_shape (b : Nat) (rest : Bytes) (hge : ¬ b < 0x80)
    (hok : ¬((decodeRune (b :: rest)).1 = 0xFFFD ∧ (decodeRune (b :: rest)).2 = 1)) :
    JItem ((b :: rest).take (decodeRune (b :: rest)).2) := by
  by_cases hc2 : b < 0xC2
  · exfalso
    apply hok
    simp only [decodeRune]
    rw [if_neg hge, if_pos hc2]
    exact ⟨rfl, rfl⟩
  by_cases hc3 : b < 0xE0
  · match rest with
    | [] =>
      exfalso
      apply hok
      simp only [decodeRune]
      rw [if_neg hge, if_neg hc2, if_pos hc3]
      exact ⟨rfl, rfl⟩
    | s1 :: t =>
      by_cases hcont : 0x80 ≤ s1 ∧ s1 ≤ 0xBF
      · have hdec : decodeRune (b :: s1 :: t) = (b % 0x20 * 0x40 + s1 % 0x40, 2) := by
          simp only [decodeRune]
          rw [if_neg hge, if_neg hc2, if_pos hc3, if_pos hcont]
        rw [hdec]
        have htake : (b :: s1 :: t).take 2 = [b, s1] := rfl
        rw [htake]
        exact JItem.raw2 b s1 (by omega) hcont
      · exfalso
        apply hok
        simp only [decodeRune]
        rw [if_neg hge, if_neg hc2, if_pos hc3, if_neg hcont]
        exact ⟨rfl, rfl⟩
  by_cases hc4 : b < 0xF0
  · match rest with
    | [] =>
      exfalso
      apply hok
      simp only [decodeRune]
      rw [if_neg hge, if_neg hc2, if_neg hc3, if_pos hc4]
      exact ⟨rfl, rfl⟩
    | [s1] =>
      exfalso
      apply hok
      simp only [decodeRune]
      rw [if_neg hge, if_neg hc2, if_neg hc3, if_pos hc4]
      exact ⟨rfl, rfl⟩
    | s1 :: s2 :: t =>
      by_cases hcond : (if b = 0xE0 then 0xA0 ≤ s1 ∧ s1 ≤ 0xBF
          else if b = 0xED then 0x80 ≤ s1 ∧ s1 ≤ 0x9F
          else 0x80 ≤ s1 ∧ s1 ≤ 0xBF) ∧ 0x80 ≤ s2 ∧ s2 ≤ 0xBF
      · have hdec : decodeRune (b :: s1 :: s2 :: t) =
            (b % 0x10 * 0x1000 + s1 % 0x40 * 0x40 + s2 % 0x40, 3) := by
          simp only [decodeRune]
          rw [if_neg hge, if_neg hc2, if_neg hc3, if_pos hc4, if_pos hcond]
        rw [hdec]
        have htake : (b :: s1 :: s2 :: t).take 3 = [b, s1, s2] := rfl
        rw [htake]
        refine JItem.raw3 b s1 s2 (by omega) ?_ hcond.2
        have h1 := hcond.1
        split at h1 <;> split <;> first | exact h1 | omega | exact h1
      · exfalso
        apply hok
        simp only [decodeRune]
        rw [if_neg hge, if_neg hc2, if_neg hc3, if_pos hc4, if_neg hcond]
        exact ⟨rfl, rfl⟩
  by_cases hc5 : b < 0xF5
  · match rest with
    | [] =>
      exfalso
      apply hok
      simp only [decodeRune]
      rw [if_neg hge, if_neg hc2, if_neg hc3, if_neg hc4, if_pos hc5]
      exact ⟨rfl, rfl⟩
    | [s1] =>
      exfalso
      apply hok
      simp only [decodeRune]
      rw [if_neg hge, if_neg hc2, if_neg hc3, if_neg hc4, if_pos hc5]
      exact ⟨rfl, rfl⟩
    | [s1, s2] =>
      exfalso
      apply hok
      simp only [decodeRune]
      rw [if_neg hge, if_neg hc2, if_neg hc3, if_neg hc4, if_pos hc5]
      exact ⟨rfl, rfl⟩
    | s1 :: s2 :: s3 :: t =>
      by_cases hcond : (if b = 0xF0 then 0x90 ≤ s1 ∧ s1 ≤ 0xBF
          else if b = 0xF4 then 0x80 ≤ s1 ∧ s1 ≤ 0x8F
          else 0x80 ≤ s1 ∧ s1 ≤ 0xBF) ∧ 0x80 ≤ s2 ∧ s2 ≤ 0xBF ∧ 0x80 ≤ s3 ∧ s3 ≤ 0xBF
      · have hdec : decodeRune (b :: s1 :: s2 :: s3 :: t) =
            (b % 8 * 0x40000 + s1 % 0x40 * 0x1000 + s2 % 0x40 * 0x40 + s3 % 0x40, 4) := by
          simp only [decodeRune]
          rw [if_neg hge, if_neg hc2, if_neg hc3, if_neg hc4, if_pos hc5, if_pos hcond]
        rw [hdec]
        have htake : (b :: s1 :: s2 :: s3 :: t).take 4 = [b, s1, s2, s3] := rfl
        rw [htake]
        refine JItem.raw4 b s1 s2 s3 (by omega) ?_ ⟨hcond.2.1, hcond.2.2.1⟩
          ⟨hcond.2.2.2.1, hcond.2.2.2.2⟩
        have h1 := hcond.1
        split at h1 <;> split <;> first | exact h1 | omega | exact h1
      · exfalso
        apply hok
        simp only [decodeRune]
        rw [if_neg hge, if_neg hc2, if_neg hc3, if_neg hc4, if_pos hc5, if_neg hcond]
        exact ⟨rfl, rfl⟩
  · exfalso
    apply hok
    simp only [decodeRune]
    rw [if_neg hge, if_neg hc2, if_neg hc3, if_neg hc4, if_neg hc5]
    exact ⟨rfl, rfl⟩

/-- The spec mapping emits only valid JSON string body text. -/
theorem JBody_specBody (s : Bytes) (hlt : ∀ x ∈ s, x < 256) : JBody (specBody s) := by
  match s with
  | [] =>
    simp only [specBody]
    exact JBody.nil
  | b :: rest =>
    rw [specBody]
    have hb : b < 256 := hlt b (by simp)
    have hrest : ∀ x ∈ rest, x < 256 := fun x hx => hlt x (by simp [hx])
    by_cases hascii : b < 0x80
    · rw [if_pos hascii]
      refine JBody_append _ _ ?_ (JBody_specBody rest hrest)
      split
      · exact JBody_specEsc b hb
      · rename_i hno
        exact JBody_single _ (JItem.raw1 b (by omega))
    · rw [if_neg hascii]
      by_cases hbad : (decodeRune (b :: rest)).1 = 0xFFFD ∧ (decodeRune (b :: rest)).2 = 1
      · rw [if_pos hbad]
        refine JBody_append _ _ ?_ (JBody_specBody rest hrest)
        rw [show bs "\\ufffd" = [0x5C, 0x75, 0x66, 0x66, 0x66, 0x64] from by decide]
        exact JBody_single _
          (JItem.uesc 0x66 0x66 0x66 0x64 (by decide) (by decide) (by decide) (by decide))
      · rw [if_neg hbad]
        have hdropsub : ∀ x ∈ (b :: rest).drop (decodeRune (b :: rest)).2, x < 256 :=
          fun x hx => hlt x (List.mem_of_mem_drop hx)
        by_cases h28 : (decodeRune (b :: rest)).1 = 0x2028
        · rw [if_pos h28]
          refine JBody_append _ _ ?_ (JBody_specBody _ hdropsub)
          rw [show bs "\\u2028" = [0x5C, 0x75, 0x32, 0x30, 0x32, 0x38] from by decide]
          exact JBody_single _
            (JItem.uesc 0x32 0x30 0x32 0x38 (by decide) (by decide) (by decide) (by decide))
        · rw [if_neg h28]
          by_cases h29 : (decodeRune (b :: rest)).1 = 0x2029
          · rw [if_pos h29]
            refine JBody_append _ _ ?_ (JBody_specBody _ hdropsub)
            rw [show bs "\\u2029" = [0x5C, 0x75, 0x32, 0x30, 0x32, 0x39] from by decide]
            exact JBody_single _
              (JItem.uesc 0x32 0x30 0x32 0x39 (by decide) (by decide) (by decide) (by decide))
          · rw [if_neg h29]
            refine JBody_append _ _ ?_ (JBody_specBody _ hdropsub)
            exact JBody_single _ (decodeRune_valid_shape b rest hascii hbad)
termination_by s.length
decreasing_by
  all_goals first
    | (simp only [List.length_cons]; omega)
    | (apply drop_length_lt _ _ (decodeRune_size_pos _ (by simp)) (by simp))

/-- A Lean character is a Unicode scalar value: below the surrogate
range or above it and below 0x110000. -/
theorem char_val_ranges (c : Char) :
    c.toNat < 0xD800 ∨ (0xDFFF < c.toNat ∧ c.toNat < 0x110000) := c.valid

/-- Decoding a UTF-8 encoded scalar value recovers the value and
consumes exactly its encoding. -/
theorem decodeRune_encode (n : Nat) (rest : Bytes)
    (hval : n < 0xD800 ∨ (0xDFFF < n ∧ n < 0x110000)) :
    decodeRune (encodeChar n ++ rest) = (n, (encodeChar n).length) := by
  unfold encodeChar
  split_ifs with h1 h2 h3
  · simp only [List.cons_append, List.nil_append, decodeRune]
    rw [if_pos h1]
    simp
  · simp only [List.cons_append, List.nil_append, decodeRune]
    rw [if_neg (by omega), if_neg (by omega), if_pos (by omega)]
    rw [if_pos (by omega)]
    simp only [List.length_cons, List.length_nil, Prod.mk.injEq]
    have ha : (192 + n / 64) % 32 = n / 64 := by omega
    have hb : (128 + n % 64) % 64 = n % 64 := by omega
    refine ⟨?_, trivial⟩
    rw [ha, hb]
    omega
  · simp only [List.cons_append, List.nil_append, decodeRune]
    rw [if_neg (by omega), if_neg (by omega), if_neg (by omega), if_pos (by omega)]
    rw [if_pos ?cond]
    case cond =>
      refine ⟨?_, by omega⟩
      split_ifs with hE0 hED <;> omega
    simp only [List.length_cons, List.length_nil, Prod.mk.injEq]
    have ha : (224 + n / 4096) % 16 = n / 4096 := by omega
    have hb : (128 + n / 64 % 64) % 64 = n / 64 % 64 := by omega
    have hc : (128 + n % 64) % 64 = n % 64 := by omega
    refine ⟨?_, trivial⟩
    rw [ha, hb, hc]
    omega
  · simp only [List.cons_append, List.nil_append, decodeRune]
    rw [if_neg (by omega), if_neg (by omega), if_neg (by omega), if_neg (by omega),
      if_pos (by omega)]
    rw [if_pos ?cond]
    case cond =>
      refine ⟨?_, by omega, by omega, by omega, by omega⟩
      split_ifs with hF0 hF4 <;> omega
    simp only [List.length_cons, List.length_nil, Prod.mk.injEq]
    have ha : (240 + n / 262144) % 8 = n / 262144 := by omega
    have hb : (128 + n / 4096 % 64) % 64 = n / 4096 % 64 := by omega
    have hc : (128 + n / 64 % 64) % 64 = n / 64 % 64 := by omega
    have hd : (128 + n % 64) % 64 = n % 64 := by omega
    refine ⟨?_, trivial⟩
    rw [ha, hb, hc, hd]
    omega

theorem encodeChar_head (n : Nat) (h : ¬ n < 0x80) :
    ∃ b0 t, encodeChar n = b0 :: t ∧ 0x80 ≤ b0 := by
  unfold encodeChar
  split_ifs with h1 h2 h3 <;> first | omega | exact ⟨_, _, rfl, by omega⟩

theorem encodeChar_length_ge2 (n : Nat) (h : ¬ n < 0x80) :
    2 ≤ (encodeChar n).length := by
  unfold encodeChar
  split_ifs with h1 h2 h3 <;> simp <;> omega

/-- Characters free of the escape-relevant code points pass through the
spec mapping byte for byte. -/
theorem specBody_pass (cs : List Char)
    (hcs : ∀ c ∈ cs, 0x20 ≤ c.toNat ∧ c.toNat ≠ 0x22 ∧ c.toNat ≠ 0x5C ∧ c.toNat ≠ 0x3C ∧
      c.toNat ≠ 0x3E ∧ c.toNat ≠ 0x26 ∧ c.toNat ≠ 0x2028 ∧ c.toNat ≠ 0x2029) :
    specBody (utf8Bytes cs) = utf8Bytes cs := by
  induction cs with
  | nil =>
    simp only [utf8Bytes, List.map_nil, List.flatten_nil, specBody]
  | cons c rest ih =>
    have hc := hcs c (by simp)
    have hrest : ∀ x ∈ rest, 0x20 ≤ x.toNat ∧ x.toNat ≠ 0x22 ∧ x.toNat ≠ 0x5C ∧
        x.toNat ≠ 0x3C ∧ x.toNat ≠ 0x3E ∧ x.toNat ≠ 0x26 ∧ x.toNat ≠ 0x2028 ∧
        x.toNat ≠ 0x2029 :=
      fun x hx => hcs x (by simp [hx])
    have henc : utf8Bytes (c :: rest) = encodeChar c.toNat ++ utf8Bytes rest := by
      simp [utf8Bytes]
    rw [henc]
    by_cases hA : c.toNat < 0x80
    · have hlist : encodeChar c.toNat = [c.toNat] := by rw [encodeChar, if_pos hA]
      rw [hlist, List.singleton_append, specBody]
      rw [if_pos hA]
      rw [if_neg (by omega)]
      rw [ih hrest]
      simp
    · have hval := char_val_ranges c
      have hdec := decodeRune_encode c.toNat (utf8Bytes rest) hval
      have hlen := encodeChar_length_ge2 c.toNat hA
      obtain ⟨b0, t, hsh, hb0⟩ := encodeChar_head c.toNat hA
      rw [hsh, List.cons_append, specBody]
      rw [if_neg (by omega)]
      rw [← List.cons_append, ← hsh, hdec]
      rw [if_neg (by
        rintro ⟨hx, hy⟩
        omega)]
      rw [if_neg (by omega), if_neg (by omega)]
      rw [List.take_left, List.drop_left]
      rw [ih hrest]

/-- C4: for every input string, the sanitizer returns a double-quoted
literal produced by one left-to-right pass with exactly the spec's
character mapping: ASCII bytes below 0x20 and `\ " < > &` are escaped
(`\` and `"` as `\\`/`\"`; newline, carriage return, tab as
`\n`/`\r`/`\t`; the rest of the set as `\u00XX` lowercase hex of the
byte's low nibbles), every invalid encoding unit becomes `�`,
U+2028/U+2029 become ` `/` `, and every other code point
passes through unescaped. -/
theorem c4_sanitiser_implements_spec_mapping (s : Bytes) :
    sanitiseString s = 0x22 :: specBody s ++ [0x22] :=
  sanitiseString_eq s

/-- C5: for every byte string, including invalid encodings, the
sanitizer's output is syntactically valid JSON string literal text. -/
theorem c5_sanitiser_output_is_json_string (s : Bytes) (h : ∀ x ∈ s, x < 256) :
    JSONStringLit (sanitiseString s) := by
  refine ⟨specBody s, JBody_specBody s h, ?_⟩
  rw [sanitiseString_eq]

theorem c5_witness :
    (∀ x ∈ ([0x61, 0xFF, 0x0A, 0xE2, 0x80, 0xA8] : Bytes), x < 256) ∧
    JSONStringLit (sanitiseString [0x61, 0xFF, 0x0A, 0xE2, 0x80, 0xA8]) :=
  ⟨by decide, c5_sanitiser_output_is_json_string [0x61, 0xFF, 0x0A, 0xE2, 0x80, 0xA8] (by decide)⟩

/-- C6: a string free of control characters, quote, backslash, the
HTML-unsafe characters `< > &`, and U+2028/U+2029 is returned
unchanged except for the surrounding quotes. -/
theorem c6_clean_strings_pass_through (cs : List Char)
    (h : ∀ c ∈ cs, 0x20 ≤ c.toNat ∧ c.toNat ≠ 0x22 ∧ c.toNat ≠ 0x5C ∧ c.toNat ≠ 0x3C ∧
      c.toNat ≠ 0x3E ∧ c.toNat ≠ 0x26 ∧ c.toNat ≠ 0x2028 ∧ c.toNat ≠ 0x2029) :
    sanitiseString (utf8Bytes cs) = 0x22 :: utf8Bytes cs ++ [0x22] := by
  rw [sanitiseString_eq, specBody_pass cs h]

theorem c6_witness :
    (∀ c ∈ (['g', 'é', '⁉', '@'] : List Char), 0x20 ≤ c.toNat ∧ c.toNat ≠ 0x22 ∧
      c.toNat ≠ 0x5C ∧ c.toNat ≠ 0x3C ∧ c.toNat ≠ 0x3E ∧ c.toNat ≠ 0x26 ∧
      c.toNat ≠ 0x2028 ∧ c.toNat ≠ 0x2029) ∧
    sanitiseString (utf8Bytes ['g', 'é', '⁉', '@']) =
      0x22 :: utf8Bytes ['g', 'é', '⁉', '@'] ++ [0x22] :=
  ⟨by decide, c6_clean_strings_pass_through ['g', 'é', '⁉', '@'] (by decide)⟩

/-- A writer whose `Write` always fails. -/
def failWriter : Unit → Bytes → Unit × Option GoErr :=
  fun _ _ => ((), some "write failure")

/-- C1 (code bug): `Encode` never surfaces a write error — `write`
discards the result of `w.Write` and `format` returns `nil` on every
path, so for any writer, including one whose every `Write` fails,
`Encode` returns `nil` and the stored error stays `nil` (the
`enc.err` short-circuit is dead code). -/
theorem c1_encode_never_returns_write_error {σ : Type} (enc : Encoder σ)
    (root : Option Node) (h : enc.err = none) :
    (Encode enc root).2 = none ∧ (Encode enc root).1.err = none := by
  have hf := Encode_frame enc root h
  refine ⟨hf.2, ?_⟩
  have h1 : (Encode enc root).1 =
      { enc with ws := (Encode enc root).1.ws } := hf.1
  rw [h1]
  exact h

theorem c1_witness :
    (NewEncoder failWriter ()).err = none ∧
    ((Encode (NewEncoder failWriter ()) (some (Node.mk (bs "x") []))).2 = none ∧
      (Encode (NewEncoder failWriter ()) (some (Node.mk (bs "x") []))).1.err = none) :=
  ⟨rfl, c1_encode_never_returns_write_error (NewEncoder failWriter ())
    (some (Node.mk (bs "x") [])) rfl⟩

/-- C9 counterexample: `EncodeWithCustomPrefixes` overwrites the
encoder's prefixes and never restores them — after the call the
configured `contentPrefix` is the per-call value, not the value from
before the call. -/
theorem c9_counterexample :
    (EncodeWithCustomPrefixes (mkE [] none (bs "P") (bs "-") false [])
      (some (Node.mk (bs "x") [])) (bs "Q") (bs "+")).1.contentPrefix ≠ bs "P" := by
  have hE : EncodeWithCustomPrefixes (mkE [] none (bs "P") (bs "-") false [])
      (some (Node.mk (bs "x") [])) (bs "Q") (bs "+") =
      Encode (mkE [] none (bs "Q") (bs "+") false []) (some (Node.mk (bs "x") [])) := rfl
  rw [hE, Encode_mkE]
  show bs "Q" ≠ bs "P"
  decide

/-- Projections: `Encode` preserves the writer method and the four
configuration fields in every case. -/
theorem Encode_config {σ : Type} (enc : Encoder σ) (root : Option Node) :
    (Encode enc root).1.writeFn = enc.writeFn ∧
    (Encode enc root).1.contentPrefix = enc.contentPrefix ∧
    (Encode enc root).1.attributePrefix = enc.attributePrefix ∧
    (Encode enc root).1.indent = enc.indent ∧
    (Encode enc root).1.indentText = enc.indentText := by
  cases herr : enc.err with
  | some e =>
    rw [Encode_stored_err enc e herr root]
    exact ⟨rfl, rfl, rfl, rfl, rfl⟩
  | none =>
    have h1 : (Encode enc root).1 = { enc with ws := (Encode enc root).1.ws } :=
      (Encode_frame enc root herr).1
    rw [h1]
    exact ⟨rfl, rfl, rfl, rfl, rfl⟩

/-- C9 (amended): `EncodeWithCustomPrefixes` equals `Encode` on the
encoder with both prefix fields overwritten, and the overwritten
prefixes persist on the encoder after the call returns. -/
theorem c9_custom_prefixes_persist {σ : Type} (enc : Encoder σ) (root : Option Node)
    (cPre aPre : Bytes) :
    EncodeWithCustomPrefixes enc root cPre aPre =
      Encode { enc with contentPrefix := cPre, attributePrefix := aPre } root ∧
    (EncodeWithCustomPrefixes enc root cPre aPre).1.contentPrefix = cPre ∧
    (EncodeWithCustomPrefixes enc root cPre aPre).1.attributePrefix = aPre :=
  ⟨rfl,
    (Encode_config { enc with contentPrefix := cPre, attributePrefix := aPre } root).2.1,
    (Encode_config { enc with contentPrefix := cPre, attributePrefix := aPre } root).2.2.1⟩

/-- What `format` writes never ends in a newline: a container ends with
`}`, a leaf with the closing quote. -/
theorem render_getLast_ne_nl (cPre : Bytes) (ind : Bool) (it : Bytes) (r : Node)
    (lvl : Nat) :
    (render cPre ind it r lvl).getLast? ≠ some 0x0A := by
  have hbrace : ∀ X : Bytes, (X ++ bs "\x7d").getLast? = some 0x7D := fun X => by
    rw [List.getLast?_append_of_ne_nil X (by decide)]
    decide
  match r with
  | Node.mk dta children =>
    by_cases hc : 0 < children.length
    · rw [render_container cPre ind it dta children lvl hc]
      rw [hbrace]
      simp
    · have hch : children = [] := by
        cases children with
        | nil => rfl
        | cons p t => simp at hc
      subst hch
      rw [render_leaf, sanitiseString_eq]
      rw [show (0x22 :: specBody dta ++ [0x22] : Bytes) =
        (0x22 :: specBody dta) ++ [0x22] from rfl]
      rw [List.getLast?_append_of_ne_nil _ (by decide)]
      decide

/-- C8 counterexample: a nil root is a successful `Encode` call that
writes nothing at all, so its output does not end with a newline. -/
theorem c8_counterexample :
    (Encode (mkE [] none [] (bs "-") false []) none).2 = none ∧
    (Encode (mkE [] none [] (bs "-") false []) none).1.ws = [] ∧
    ((Encode (mkE [] none [] (bs "-") false []) none).1.ws).getLast? ≠ some 0x0A := by
  refine ⟨rfl, rfl, ?_⟩
  rw [show (Encode (mkE [] none [] (bs "-") false []) none).1.ws = [] from rfl]
  simp

/-- C8 (amended): every successful `Encode` of a non-nil root writes
one value followed by exactly one trailing newline: the written bytes
are the rendering (which never ends in a newline) plus a single
newline byte. -/
theorem c8_output_ends_with_one_newline (ws cPre aPre : Bytes) (ind : Bool) (it : Bytes)
    (r : Node) :
    (Encode (mkE ws none cPre aPre ind it) (some r)).2 = none ∧
    ∃ w, (Encode (mkE ws none cPre aPre ind it) (some r)).1.ws = ws ++ (w ++ [0x0A]) ∧
      w.getLast? ≠ some 0x0A := by
  rw [Encode_mkE]
  refine ⟨rfl, render cPre ind it r 0, ?_, render_getLast_ne_nl cPre ind it r 0⟩
  show ws ++ render cPre ind it r 0 ++ bs "\n" = ws ++ (render cPre ind it r 0 ++ [0x0A])
  rw [show bs "\n" = [0x0A] from rfl]
  rw [List.append_assoc]

set_option maxRecDepth 100000 in
set_option maxHeartbeats 2000000 in
unseal render renderEntries renderArray sanLoop in
/-- C7 counterexample: in indent mode the synthetic content entry is
followed by `", "` and then a newline (three bytes `, ` + LF), not by
the two-byte separator `",\n"` the claim states: the actual output
contains `"text", \n` and differs from the claimed `"text",\n` form. -/
theorem c7_counterexample :
    (format (mkE [] none [] (bs "-") true (bs "  "))
      (Node.mk (bs "text") [(bs "x", [Node.mk (bs "hi") []])]) 0).1.ws =
      bs "\x7b\n  \"content\": \"text\", \n  \"x\": \"hi\"\n\x7d" ∧
    bs "\x7b\n  \"content\": \"text\", \n  \"x\": \"hi\"\n\x7d" ≠
      bs "\x7b\n  \"content\": \"text\",\n  \"x\": \"hi\"\n\x7d" := by
  constructor
  · rw [format_mkE]
    show ([] : Bytes) ++ render [] true (bs "  ")
      (Node.mk (bs "text") [(bs "x", [Node.mk (bs "hi") []])]) 0 = _
    decide
  · decide

/-- C7 (amended): a container with non-empty `Data` emits the synthetic
content key `contentPrefix ++ "content"` with the sanitized data first,
directly after `{` and before all sorted child labels; the entry is
followed by `", "` in compact mode and by `", "` plus a newline in
indent mode. -/
theorem c7_content_entry_first (ws cPre aPre : Bytes) (ind : Bool) (it dta : Bytes)
    (children : List (Bytes × List Node)) (lvl : Nat)
    (hd : 0 < dta.length) (hc : 0 < children.length) :
    (format (mkE ws none cPre aPre ind it) (Node.mk dta children) lvl).1.ws =
      ws ++ bs "\x7b" ++ nlIf ind
        ++ indRep ind it (lvl + 1) ++ bs "\"" ++ cPre ++ bs "content" ++ bs "\": "
        ++ sanitiseString dta ++ bs ", " ++ nlIf ind
        ++ joinSep (sepOf ind) ((slOf children).map (entryRender cPre ind it children lvl))
        ++ bs "\n" ++ indRep ind it lvl ++ bs "\x7d" := by
  rw [format_mkE]
  show ws ++ render cPre ind it (Node.mk dta children) lvl = _
  rw [render_container cPre ind it dta children lvl hc, if_pos hd]
  simp [List.append_assoc]

theorem c7_witness :
    (0 < (bs "text").length ∧
      0 < ([(bs "x", [Node.mk (bs "hi") []])] : List (Bytes × List Node)).length) ∧
    (format (mkE [] none [] (bs "-") false []) (Node.mk (bs "text")
        [(bs "x", [Node.mk (bs "hi") []])]) 0).1.ws =
      [] ++ bs "\x7b" ++ nlIf false
        ++ indRep false [] (0 + 1) ++ bs "\"" ++ [] ++ bs "content" ++ bs "\": "
        ++ sanitiseString (bs "text") ++ bs ", " ++ nlIf false
        ++ joinSep (sepOf false) ((slOf [(bs "x", [Node.mk (bs "hi") []])]).map
          (entryRender [] false [] [(bs "x", [Node.mk (bs "hi") []])] 0))
        ++ bs "\n" ++ indRep false [] 0 ++ bs "\x7d" :=
  ⟨⟨by decide, by decide⟩,
    c7_content_entry_first [] [] (bs "-") false [] (bs "text")
      [(bs "x", [Node.mk (bs "hi") []])] 0 (by decide) (by decide)⟩

/-- C2: in every container, a label whose child sequence has length one
is emitted by rendering the sole child directly with no array wrapper,
while a label with two or more children is emitted as a JSON array of
exactly those children, each rendered independently, joined by `", "`
in the sequence's original (insertion) order. -/
theorem c2_single_child_direct_repeated_as_array (ws cPre aPre : Bytes) (ind : Bool)
    (it dta : Bytes) (children : List (Bytes × List Node)) (lvl : Nat)
    (hc : 0 < children.length) (hne : ∀ p ∈ children, p.2 ≠ ([] : List Node)) :
    (format (mkE ws none cPre aPre ind it) (Node.mk dta children) lvl).1.ws =
      ws ++ bs "\x7b" ++ nlIf ind
        ++ (if 0 < dta.length then
              indRep ind it (lvl + 1) ++ bs "\"" ++ cPre ++ bs "content" ++ bs "\": "
                ++ sanitiseString dta ++ bs ", " ++ nlIf ind
            else [])
        ++ joinSep (sepOf ind) ((slOf children).map (fun label =>
            indRep ind it (lvl + 1) ++ bs "\"" ++ label ++ bs "\": "
              ++ (if 1 < (lookupChildren children label).length then
                    bs "[" ++ joinSep (bs ", ")
                        ((lookupChildren children label).map
                          (fun ch => render cPre ind it ch (lvl + 2)))
                      ++ bs "]"
                  else
                    render cPre ind it
                      ((lookupChildren children label).headD (Node.mk [] [])) (lvl + 1))))
        ++ bs "\n" ++ indRep ind it lvl ++ bs "\x7d" := by
  rw [format_mkE]
  show ws ++ render cPre ind it (Node.mk dta children) lvl = _
  rw [render_container cPre ind it dta children lvl hc]
  have hmap : (slOf children).map (entryRender cPre ind it children lvl) =
      (slOf children).map (fun label =>
        indRep ind it (lvl + 1) ++ bs "\"" ++ label ++ bs "\": "
          ++ (if 1 < (lookupChildren children label).length then
                bs "[" ++ joinSep (bs ", ")
                    ((lookupChildren children label).map
                      (fun ch => render cPre ind it ch (lvl + 2)))
                  ++ bs "]"
              else
                render cPre ind it
                  ((lookupChildren children label).headD (Node.mk [] [])) (lvl + 1))) := by
    apply List.map_congr_left
    intro label hlab
    unfold entryRender
    by_cases ha : 1 < (lookupChildren children label).length
    · rw [if_pos ha, if_pos ha]
    · rw [if_neg ha, if_neg ha]
      have hlabin : label ∈ children.map Prod.fst :=
        ((slOf_perm children).mem_iff).mp hlab
      have hnn := lookup_ne_nil children label hlabin hne
      congr 1
      cases hch : lookupChildren children label with
      | nil => exact absurd hch hnn
      | cons ch chtl => simp
  rw [hmap]
  simp [List.append_assoc]

theorem c2_witness :
    (0 < ([(bs "b", [Node.mk (bs "1") []]),
          (bs "a", [Node.mk (bs "2") [], Node.mk (bs "3") []])] :
        List (Bytes × List Node)).length ∧
      ∀ p ∈ ([(bs "b", [Node.mk (bs "1") []]),
          (bs "a", [Node.mk (bs "2") [], Node.mk (bs "3") []])] :
        List (Bytes × List Node)), p.2 ≠ ([] : List Node)) ∧
    (format (mkE [] none [] (bs "-") false []) (Node.mk []
        [(bs "b", [Node.mk (bs "1") []]),
         (bs "a", [Node.mk (bs "2") [], Node.mk (bs "3") []])]) 0).1.ws =
      [] ++ bs "\x7b" ++ nlIf false
        ++ (if 0 < ([] : Bytes).length then
              indRep false [] (0 + 1) ++ bs "\"" ++ [] ++ bs "content" ++ bs "\": "
                ++ sanitiseString [] ++ bs ", " ++ nlIf false
            else [])
        ++ joinSep (sepOf false) ((slOf [(bs "b", [Node.mk (bs "1") []]),
            (bs "a", [Node.mk (bs "2") [], Node.mk (bs "3") []])]).map (fun label =>
            indRep false [] (0 + 1) ++ bs "\"" ++ label ++ bs "\": "
              ++ (if 1 < (lookupChildren [(bs "b", [Node.mk (bs "1") []]),
                    (bs "a", [Node.mk (bs "2") [], Node.mk (bs "3") []])] label).length then
                    bs "[" ++ joinSep (bs ", ")
                        ((lookupChildren [(bs "b", [Node.mk (bs "1") []]),
                          (bs "a", [Node.mk (bs "2") [], Node.mk (bs "3") []])] label).map
                          (fun ch => render [] false [] ch (0 + 2)))
                      ++ bs "]"
                  else
                    render [] false []
                      ((lookupChildren [(bs "b", [Node.mk (bs "1") []]),
                        (bs "a", [Node.mk (bs "2") [], Node.mk (bs "3") []])] label).headD
                        (Node.mk [] [])) (0 + 1))))
        ++ bs "\n" ++ indRep false [] 0 ++ bs "\x7d" :=
  ⟨⟨by decide, by simp⟩,
    c2_single_child_direct_repeated_as_array [] [] (bs "-") false [] []
      [(bs "b", [Node.mk (bs "1") []]),
       (bs "a", [Node.mk (bs "2") [], Node.mk (bs "3") []])] 0 (by decide) (by simp)⟩

/-- With distinct keys, permuting the association list leaves every
lookup unchanged. -/
theorem lookup_perm_eq (children₁ children₂ : List (Bytes × List Node))
    (hperm : List.Perm children₁ children₂)
    (hnd : (children₁.map Prod.fst).Nodup) (l : Bytes)
    (hl : l ∈ children₁.map Prod.fst) :
    lookupChildren children₁ l = lookupChildren children₂ l := by
  have hnd₂ : (children₂.map Prod.fst).Nodup :=
    ((hperm.map Prod.fst).nodup_iff).mp hnd
  have h1 := lookup_mem children₁ l hl
  have h2 : (l, lookupChildren children₁ l) ∈ children₂ := hperm.subset h1
  exact (lookup_eq_of_mem children₂ l _ h2 hnd₂).symm

/-- Permuting the association list (with distinct keys) leaves the
emitted label list unchanged. -/
theorem slOf_perm_eq (children₁ children₂ : List (Bytes × List Node))
    (hperm : List.Perm children₁ children₂) :
    slOf children₁ = slOf children₂ := by
  have hkeys : List.Perm (children₁.map Prod.fst) (children₂.map Prod.fst) :=
    hperm.map Prod.fst
  have hlen : (children₁.map Prod.fst).length = (children₂.map Prod.fst).length :=
    hkeys.length_eq
  simp only [slOf]
  by_cases hgt : 1 < (children₁.map Prod.fst).length
  · rw [if_pos hgt, if_pos (by omega)]
    refine List.eq_of_perm_of_sorted ?_ (List.sorted_insertionSort strLe _)
      (List.sorted_insertionSort strLe _)
    exact ((List.perm_insertionSort strLe _).trans hkeys).trans
      (List.perm_insertionSort strLe _).symm
  · rw [if_neg hgt, if_neg (by omega)]
    cases hk : children₁.map Prod.fst with
    | nil =>
      rw [hk] at hkeys
      exact (hkeys.nil_eq).symm ▸ rfl
    | cons a tl =>
      cases tl with
      | nil =>
        rw [hk] at hkeys
        have := List.perm_singleton.mp hkeys.symm
        rw [this]
      | cons b t =>
        rw [hk] at hgt
        simp at hgt

/-- C3: the emitted key order of a container is the byte-wise
lexicographic sort of its labels — the emitted label list is sorted and
is a permutation of the collected labels, a single-label container
skips the sort (`slOf` returns the lone label unchanged), and the
written output is independent of the insertion order of the children
mapping. -/
theorem c3_keys_sorted_and_order_independent (ws cPre aPre : Bytes) (ind : Bool)
    (it dta : Bytes) (children₁ children₂ : List (Bytes × List Node)) (lvl : Nat)
    (hperm : List.Perm children₁ children₂)
    (hnd : (children₁.map Prod.fst).Nodup) :
    (slOf children₁).Sorted strLe ∧
    List.Perm (slOf children₁) (children₁.map Prod.fst) ∧
    (∀ l chs, slOf [(l, chs)] = [l]) ∧
    (format (mkE ws none cPre aPre ind it) (Node.mk dta children₁) lvl).1.ws =
      (format (mkE ws none cPre aPre ind it) (Node.mk dta children₂) lvl).1.ws := by
  refine ⟨slOf_sorted children₁, slOf_perm children₁, ?_, ?_⟩
  · intro l chs
    simp [slOf]
  · rw [format_mkE, format_mkE]
    show ws ++ render cPre ind it (Node.mk dta children₁) lvl =
      ws ++ render cPre ind it (Node.mk dta children₂) lvl
    by_cases hc : 0 < children₁.length
    · have hc₂ : 0 < children₂.length := by
        have := hperm.length_eq
        omega
      rw [render_container cPre ind it dta children₁ lvl hc,
        render_container cPre ind it dta children₂ lvl hc₂]
      rw [← slOf_perm_eq children₁ children₂ hperm]
      have hmap : (slOf children₁).map (entryRender cPre ind it children₁ lvl) =
          (slOf children₁).map (entryRender cPre ind it children₂ lvl) := by
        apply List.map_congr_left
        intro label hlab
        have hlabin : label ∈ children₁.map Prod.fst :=
          ((slOf_perm children₁).mem_iff).mp hlab
        unfold entryRender
        rw [lookup_perm_eq children₁ children₂ hperm hnd label hlabin]
      rw [hmap]
    · have h1 : children₁ = [] := by
        cases children₁ with
        | nil => rfl
        | cons p t => simp at hc
      subst h1
      have h2 : children₂ = [] := hperm.nil_eq.symm
      subst h2
      rfl

theorem c3_witness :
    let c₁ : List (Bytes × List Node) :=
      [(bs "b", [Node.mk (bs "1") []]), (bs "a", [Node.mk (bs "2") []])]
    let c₂ : List (Bytes × List Node) :=
      [(bs "a", [Node.mk (bs "2") []]), (bs "b", [Node.mk (bs "1") []])]
    (slOf c₁).Sorted strLe ∧
    List.Perm (slOf c₁) (c₁.map Prod.fst) ∧
    (∀ l chs, slOf [(l, chs)] = [l]) ∧
    (format (mkE [] none [] (bs "-") false []) (Node.mk [] c₁) 0).1.ws =
      (format (mkE [] none [] (bs "-") false []) (Node.mk [] c₂) 0).1.ws :=
  c3_keys_sorted_and_order_independent [] [] (bs "-") false [] []
    [(bs "b", [Node.mk (bs "1") []]), (bs "a", [Node.mk (bs "2") []])]
    [(bs "a", [Node.mk (bs "2") []]), (bs "b", [Node.mk (bs "1") []])] 0
    (List.Perm.swap _ _ _) (by decide)

/-- C10: `Encode` never mutates the encoder's configuration — after any
call the writer method, both prefixes, the indent flag and the indent
text are unchanged, and a call that returns `nil` leaves the stored
error `nil`; consequently successive successful calls on one collecting
encoder each append exactly what a fresh encoder with the same
configuration would write: one rendered value plus one newline. -/
theorem c10_encode_pure_config_and_repeatable {σ : Type} (enc : Encoder σ)
    (root : Option Node) (ws cPre aPre : Bytes) (ind : Bool) (it : Bytes) (r1 r2 : Node) :
    ((Encode enc root).1.writeFn = enc.writeFn ∧
      (Encode enc root).1.contentPrefix = enc.contentPrefix ∧
      (Encode enc root).1.attributePrefix = enc.attributePrefix ∧
      (Encode enc root).1.indent = enc.indent ∧
      (Encode enc root).1.indentText = enc.indentText ∧
      ((Encode enc root).2 = none → (Encode enc root).1.err = none)) ∧
    Encode (Encode (mkE ws none cPre aPre ind it) (some r1)).1 (some r2) =
      (mkE (ws ++ (render cPre ind it r1 0 ++ bs "\n") ++ (render cPre ind it r2 0 ++ bs "\n"))
        none cPre aPre ind it, none) := by
  constructor
  · cases herr : enc.err with
    | some e =>
      rw [Encode_stored_err enc e herr root]
      exact ⟨rfl, rfl, rfl, rfl, rfl, fun hx => by simp at hx⟩
    | none =>
      have h1 : (Encode enc root).1 = { enc with ws := (Encode enc root).1.ws } :=
        (Encode_frame enc root herr).1
      rw [h1]
      exact ⟨rfl, rfl, rfl, rfl, rfl, fun _ => herr⟩
  · rw [Encode_mkE]
    show Encode (mkE (ws ++ render cPre ind it r1 0 ++ bs "\n") none cPre aPre ind it)
      (some r2) = _
    rw [Encode_mkE]
    simp [List.append_assoc]

theorem c10_witness :
    ((Encode (NewEncoder failWriter ()) none).1.writeFn =
        (NewEncoder failWriter ()).writeFn ∧
      (Encode (NewEncoder failWriter ()) none).1.contentPrefix =
        (NewEncoder failWriter ()).contentPrefix ∧
      (Encode (NewEncoder failWriter ()) none).1.attributePrefix =
        (NewEncoder failWriter ()).attributePrefix ∧
      (Encode (NewEncoder failWriter ()) none).1.indent =
        (NewEncoder failWriter ()).indent ∧
      (Encode (NewEncoder failWriter ()) none).1.indentText =
        (NewEncoder failWriter ()).indentText ∧
      ((Encode (NewEncoder failWriter ()) none).2 = none →
        (Encode (NewEncoder failWriter ()) none).1.err = none)) ∧
    Encode (Encode (mkE [] none [] (bs "-") false []) (some (Node.mk (bs "1") []))).1
        (some (Node.mk (bs "2") [])) =
      (mkE ([] ++ (render [] false [] (Node.mk (bs "1") []) 0 ++ bs "\n")
          ++ (render [] false [] (Node.mk (bs "2") []) 0 ++ bs "\n"))
        none [] (bs "-") false [], none) :=
  c10_encode_pure_config_and_repeatable (NewEncoder failWriter ()) none
    [] [] (bs "-") false [] (Node.mk (bs "1") []) (Node.mk (bs "2") [])
